import Mathlib

/-!
Shallow embedding of the HMM-based pinyin IME decoding core
(`src/models/hmm.py` and `src/decoder/viterbi.py`).

Modelling conventions:
* Han characters are `Char`, pinyin syllables are `String`.
* Log-probability scores are `ℤ`: the decoders only add and order-compare
  scores, so any linear ordered additive group models the Python floats;
  `ℤ` keeps every concrete run kernel-computable.
* Python `dict`s are insertion-ordered association lists
  (`List (κ × α)`); `dict.get(k, d)` is `(alookup l k).getD d`,
  `d[k] = v` is `dictInsert` (update in place if present, else append),
  and iteration over `.items()` is iteration over the list.
* Python's stable `sorted(..., reverse=True)` is `sortDesc`, a stable
  descending insertion sort.
* Decoded sequences (Python strings built by joining single-character
  candidates) are `List Char`.
-/

/-- Association-list lookup, modelling membership / `dict.get`. -/
def alookup {κ α : Type} [DecidableEq κ] : List (κ × α) → κ → Option α
  | [], _ => none
  | (k, v) :: rest, key => if key = k then some v else alookup rest key

/-- `d[k] = v` on an insertion-ordered dict: update in place when the key
is present, otherwise append at the end. -/
def dictInsert {κ α : Type} [DecidableEq κ] : List (κ × α) → κ → α → List (κ × α)
  | [], key, v => [(key, v)]
  | (k, w) :: rest, key, v =>
      if key = k then (key, v) :: rest else (k, w) :: dictInsert rest key v

/-- Stable insertion (descending by `f`): the new element goes before the
first element whose key is not strictly greater, so earlier list elements
with equal keys stay first, as in Python's stable sort. -/
def insertDesc {α : Type} (f : α → ℤ) (x : α) : List α → List α
  | [] => [x]
  | y :: ys => if f x < f y then y :: insertDesc f x ys else x :: y :: ys

/-- Stable descending sort by key `f`, modelling
`sorted(..., key=f, reverse=True)`. -/
def sortDesc {α : Type} (f : α → ℤ) : List α → List α
  | [] => []
  | x :: xs => insertDesc f x (sortDesc f xs)

theorem insertDesc_perm {α : Type} (f : α → ℤ) (x : α) (l : List α) :
    (insertDesc f x l).Perm (x :: l) := by
  induction l with
  | nil => simp [insertDesc]
  | cons y ys ih =>
      by_cases h : f x < f y
      · simpa [insertDesc, h] using ((ih.cons y).trans (List.Perm.swap x y ys))
      · simp [insertDesc, h]

theorem sortDesc_perm {α : Type} (f : α → ℤ) (l : List α) :
    (sortDesc f l).Perm l := by
  induction l with
  | nil => simp [sortDesc]
  | cons x xs ih => exact (insertDesc_perm f x (sortDesc f xs)).trans (ih.cons x)

theorem length_sortDesc {α : Type} (f : α → ℤ) (l : List α) :
    (sortDesc f l).length = l.length :=
  (sortDesc_perm f l).length_eq

theorem insertDesc_pairwise {α : Type} (f : α → ℤ) (x : α) (l : List α)
    (h : l.Pairwise (fun a b => f b ≤ f a)) :
    (insertDesc f x l).Pairwise (fun a b => f b ≤ f a) := by
  induction l with
  | nil => simp [insertDesc]
  | cons y ys ih =>
      rcases List.pairwise_cons.mp h with ⟨hy, hys⟩
      by_cases hxy : f x < f y
      · simp only [insertDesc, if_pos hxy]
        refine List.pairwise_cons.mpr ⟨?_, ih hys⟩
        intro z hz
        have hz' : z ∈ x :: ys := (insertDesc_perm f x ys).subset hz
        rcases List.mem_cons.mp hz' with h1 | h1
        · subst h1; exact le_of_lt hxy
        · exact hy z h1
      · simp only [insertDesc, if_neg hxy]
        refine List.pairwise_cons.mpr ⟨?_, List.pairwise_cons.mpr ⟨hy, hys⟩⟩
        intro z hz
        rcases List.mem_cons.mp hz with h1 | h1
        · subst h1; exact le_of_not_lt hxy
        · exact le_trans (hy z h1) (le_of_not_lt hxy)

theorem sortDesc_pairwise {α : Type} (f : α → ℤ) (l : List α) :
    (sortDesc f l).Pairwise (fun a b => f b ≤ f a) := by
  induction l with
  | nil => simp [sortDesc]
  | cons x xs ih => exact insertDesc_pairwise f x (sortDesc f xs) ih

/-- The head of a descending-sorted list bounds every element. -/
theorem sortDesc_head_ge {α : Type} (f : α → ℤ) (l : List α) (h : α) (t : List α)
    (heq : sortDesc f l = h :: t) : ∀ y ∈ l, f y ≤ f h := by
  intro y hy
  have hy' : y ∈ sortDesc f l := (sortDesc_perm f l).mem_iff.mpr hy
  rw [heq] at hy'
  rcases List.mem_cons.mp hy' with h1 | h1
  · subst h1; exact le_refl _
  · have hp := sortDesc_pairwise f l
    rw [heq] at hp
    exact (List.pairwise_cons.mp hp).1 y h1

/-! ## `src/models/hmm.py`: the HMM parameter store -/

/-- Sentinel log-probability for missing entries (`NEG_INF = -1e9`). -/
def NEG_INF : ℤ := -1000000000

/-- `HMMParams` (`src/models/hmm.py`): three log-probability tables. -/
structure HMMParams where
  init_log_probs : List (Char × ℤ)
  trans_log_probs : List (Char × List (Char × ℤ))
  emit_log_probs : List (Char × List (String × ℤ))
deriving DecidableEq

/-- `self.init_log_probs.get(ch, NEG_INF)` -/
def HMMParams.get_init (m : HMMParams) (ch : Char) : ℤ :=
  (alookup m.init_log_probs ch).getD NEG_INF

/-- `self.trans_log_probs.get(prev_ch, {}).get(ch, NEG_INF)` -/
def HMMParams.get_trans (m : HMMParams) (prev_ch ch : Char) : ℤ :=
  (alookup ((alookup m.trans_log_probs prev_ch).getD []) ch).getD NEG_INF

/-- `self.emit_log_probs.get(ch, {}).get(py, NEG_INF)` -/
def HMMParams.get_emit (m : HMMParams) (ch : Char) (py : String) : ℤ :=
  (alookup ((alookup m.emit_log_probs ch).getD []) py).getD NEG_INF

/-! ### Serialisation (`HMMParams.save` / `HMMParams.load`)

`save` dumps `{'init': ..., 'trans': ..., 'emit': ...}` as JSON; `load`
reads the three keys back. We model the JSON value tree (numbers and
string-keyed objects); character keys are serialised as one-character
strings, exactly as Python's `json` writes `dict` keys. -/

/-- JSON values as written/read by `HMMParams.save`/`load`. -/
inductive JVal where
  | num : ℤ → JVal
  | obj : List (String × JVal) → JVal

/-- Serialise a `Char`-keyed table of numbers. -/
def encCharTable (t : List (Char × ℤ)) : JVal :=
  .obj (t.map fun e => (String.mk [e.1], .num e.2))

/-- Serialise a nested `Char → Char → ℤ` table. -/
def encTransTable (t : List (Char × List (Char × ℤ))) : JVal :=
  .obj (t.map fun e => (String.mk [e.1], encCharTable e.2))

/-- Serialise a nested `Char → String → ℤ` table. -/
def encEmitTable (t : List (Char × List (String × ℤ))) : JVal :=
  .obj (t.map fun e => (String.mk [e.1], .obj (e.2.map fun p => (p.1, .num p.2))))

/-- `HMMParams.save`: the JSON object `{'init':…, 'trans':…, 'emit':…}`. -/
def HMMParams.save (m : HMMParams) : JVal :=
  .obj [("init", encCharTable m.init_log_probs),
        ("trans", encTransTable m.trans_log_probs),
        ("emit", encEmitTable m.emit_log_probs)]

/-- Parse a JSON object key back into the `Char` it serialises. -/
def decCharKey (s : String) : Option Char :=
  match s.data with
  | [c] => some c
  | _ => none

/-- Parse a `Char`-keyed table of numbers. -/
def decCharTable : List (String × JVal) → Option (List (Char × ℤ))
  | [] => some []
  | (k, v) :: rest =>
      match decCharKey k, v with
      | some c, .num q => (decCharTable rest).map (fun r => (c, q) :: r)
      | _, _ => none

/-- Parse an inner `String`-keyed table of numbers. -/
def decStrTable : List (String × JVal) → Option (List (String × ℤ))
  | [] => some []
  | (k, v) :: rest =>
      match v with
      | .num q => (decStrTable rest).map (fun r => (k, q) :: r)
      | _ => none

/-- Parse a nested `Char → Char → ℤ` table. -/
def decTransTable : List (String × JVal) → Option (List (Char × List (Char × ℤ)))
  | [] => some []
  | (k, v) :: rest =>
      match decCharKey k, v with
      | some c, .obj inner =>
          match decCharTable inner with
          | some m => (decTransTable rest).map (fun r => (c, m) :: r)
          | none => none
      | _, _ => none

/-- Parse a nested `Char → String → ℤ` table. -/
def decEmitTable : List (String × JVal) → Option (List (Char × List (String × ℤ)))
  | [] => some []
  | (k, v) :: rest =>
      match decCharKey k, v with
      | some c, .obj inner =>
          match decStrTable inner with
          | some m => (decEmitTable rest).map (fun r => (c, m) :: r)
          | none => none
      | _, _ => none

/-- `HMMParams.load`: read `obj['init']`, `obj['trans']`, `obj['emit']`
(`none` models the `KeyError`/shape failure path). -/
def HMMParams.load (j : JVal) : Option HMMParams :=
  match j with
  | .num _ => none
  | .obj fields =>
      match alookup fields "init", alookup fields "trans", alookup fields "emit" with
      | some (.obj ji), some (.obj jt), some (.obj je) =>
          match decCharTable ji, decTransTable jt, decEmitTable je with
          | some ti, some tt, some te => some ⟨ti, tt, te⟩
          | _, _, _ => none
      | _, _, _ => none

/-! ## `src/decoder/viterbi.py`: decoders

`HMMLike` is the scoring interface consumed by all decoders. -/

structure HMMLike where
  get_init : Char → ℤ
  get_trans : Char → Char → ℤ
  get_emit : Char → String → ℤ

/-- A trellis layer `{char: (score, prev_char)}` of the incremental
decoder, in `dict` insertion order. -/
abbrev Layer := List (Char × (ℤ × Option Char))

/-- `candidates_map.get(pinyin, [])`. -/
def candsOf (cm : List (String × List Char)) (py : String) : List Char :=
  (alookup cm py).getD []

/-- The bigram bonus applied to a transition: `bigram_bonus.get(prev+ch, 0.0)`
when a bonus mapping is supplied (a `None` or empty mapping is falsy, and
`prev_char` — a character — is always truthy), else `0`. -/
def bonusAt (b : Option (List ((Char × Char) × ℤ))) (p c : Char) : ℤ :=
  match b with
  | none => 0
  | some m => if m = [] then 0 else (alookup m (p, c)).getD 0

/-- Constructor arguments of `IncrementalViterbi` (immutable over a session). -/
structure IncConfig where
  candidates_map : List (String × List Char)
  hmm : HMMLike
  beam_size : ℕ
  bigram_bonus : Option (List ((Char × Char) × ℤ))

/-- Mutable state of `IncrementalViterbi`: the pinyin buffer and
`dp_states` (oldest layer first, as in the Python list). -/
structure IncState where
  pinyin_buffer : List String
  dp_states : List Layer
deriving DecidableEq

/-- The freshly constructed / `reset` state. -/
def IncState.empty : IncState := ⟨[], []⟩

/-- `IncrementalViterbi.reset`. -/
def reset (_st : IncState) : IncState := IncState.empty

/-- `_backtrack_from`'s loop body, on the layers listed most-recent first:
append the current character; if a layer remains below (`t > 0`) and the
character is present in the current layer, follow its back-pointer
(a `None` back-pointer stops the walk), else stop. Characters are
collected most-recent first, as in the Python `chars` list. -/
def backAux : List Layer → Char → List Char
  | [], c => [c]
  | l :: rest, c =>
      match rest with
      | [] => [c]
      | _ :: _ =>
          match alookup l c with
          | some (_, some p) => c :: backAux rest p
          | _ => [c]

/-- `IncrementalViterbi._backtrack_from(len(dp_states)-1, start)`:
empty result on an empty trellis or a `None` start character, otherwise
the reversed walk. -/
def backtrackFrom (dp : List Layer) (start : Option Char) : List Char :=
  match dp.reverse, start with
  | [], _ => []
  | _, none => []
  | ls, some c => (backAux ls c).reverse

/-- `IncrementalViterbi.get_topk_sequences(k)`: empty when there are no
layers or the last layer is empty; otherwise sort the last layer by score
(descending, stable), keep `k`, and back-trace each. -/
def get_topk_sequences (st : IncState) (k : ℕ) : List (List Char × ℤ) :=
  match st.dp_states.getLast? with
  | none => []
  | some lastLayer =>
      if lastLayer = [] then []
      else
        ((sortDesc (fun e => e.2.1) lastLayer).take k).map
          (fun e => (backtrackFrom st.dp_states (some e.1), e.2.1))

/-- The initial-style layer `{c: (init(c) + emit(c, py), None)}` built for
the first token or after a dead-end layer. -/
def initLayer (hmm : HMMLike) (cands : List Char) (py : String) : Layer :=
  cands.foldl
    (fun l c => dictInsert l c (hmm.get_init c + hmm.get_emit c py, none)) []

/-- The inner maximisation of `add_pinyin`'s DP branch: starting from
`best_score = -inf`, scan the previous layer keeping the strictly better
score (first maximum wins). The previous layer is non-empty there, so the
first entry always replaces `-inf`; we fold from the first entry. -/
def bestOver (hmm : HMMLike) (bonus : Option (List ((Char × Char) × ℤ)))
    (c : Char) (emit : ℤ) (e0 : Char × (ℤ × Option Char))
    (rest : Layer) : ℤ × Char :=
  rest.foldl
    (fun best e =>
      let s := e.2.1 + hmm.get_trans e.1 c + emit + bonusAt bonus e.1 c
      if s > best.1 then (s, e.1) else best)
    (e0.2.1 + hmm.get_trans e0.1 c + emit + bonusAt bonus e0.1 c, e0.1)

/-- The DP-extension layer of `add_pinyin` (previous layer non-empty),
before pruning. -/
def extendLayer (hmm : HMMLike) (bonus : Option (List ((Char × Char) × ℤ)))
    (e0 : Char × (ℤ × Option Char)) (rest : Layer)
    (cands : List Char) (py : String) : Layer :=
  cands.foldl
    (fun l c =>
      let b := bestOver hmm bonus c (hmm.get_emit c py) e0 rest
      dictInsert l c (b.1, some b.2))
    []

/-- Beam pruning of `add_pinyin`: keep the top `beam_size` entries by
score when the layer is larger (Python sorts descending and rebuilds the
dict from the first `beam_size` items). -/
def pruneLayer (beam_size : ℕ) (l : Layer) : Layer :=
  if l.length > beam_size then (sortDesc (fun e => e.2.1) l).take beam_size else l

/-- `IncrementalViterbi.add_pinyin(pinyin)`: returns the next state and
the returned top-5 candidate list. An empty pinyin is a query only; a
pinyin without candidates pushes an empty layer; the first token or a
token after a dead-end layer rebuilds from `init + emit`; otherwise the
DP extension with beam pruning runs. -/
def add_pinyin (cfg : IncConfig) (st : IncState) (py : String) :
    IncState × List (List Char × ℤ) :=
  if py = "" then (st, get_topk_sequences st 5)
  else
    let buf := st.pinyin_buffer ++ [py]
    let cands := candsOf cfg.candidates_map py
    if cands = [] then
      let st' : IncState := ⟨buf, st.dp_states ++ [[]]⟩
      (st', get_topk_sequences st' 5)
    else
      if st.pinyin_buffer = [] then
        -- t == 0
        let st' : IncState := ⟨buf, st.dp_states ++ [initLayer cfg.hmm cands py]⟩
        (st', get_topk_sequences st' 5)
      else
        -- prev_layer = dp_states[t-1]; under the length invariant this is
        -- the last layer (Python would raise IndexError on shorter lists,
        -- modelled as the empty layer).
        match (st.dp_states.drop (st.pinyin_buffer.length - 1)).head? with
        | none =>
            let st' : IncState := ⟨buf, st.dp_states ++ [initLayer cfg.hmm cands py]⟩
            (st', get_topk_sequences st' 5)
        | some [] =>
            let st' : IncState := ⟨buf, st.dp_states ++ [initLayer cfg.hmm cands py]⟩
            (st', get_topk_sequences st' 5)
        | some (e0 :: rest) =>
            let layer := pruneLayer cfg.beam_size
              (extendLayer cfg.hmm cfg.bigram_bonus e0 rest cands py)
            let st' : IncState := ⟨buf, st.dp_states ++ [layer]⟩
            (st', get_topk_sequences st' 5)

/-- `IncrementalViterbi.delete_last()`: pop the last pinyin and layer when
the buffer is non-empty; return the top-5 list when layers remain, else
the empty list. -/
def delete_last (st : IncState) : IncState × List (List Char × ℤ) :=
  let st' : IncState :=
    if st.pinyin_buffer = [] then st
    else ⟨st.pinyin_buffer.dropLast, st.dp_states.dropLast⟩
  (st', if st'.dp_states = [] then [] else get_topk_sequences st' 5)

/-- `IncrementalViterbi._predict_with_pinyin`'s inner maximisation:
`best_score = max(best_score, score)` over the previous layer, starting
from `-inf` (so the first entry's score is the seed). -/
def bestScoreOnly (hmm : HMMLike) (bonus : Option (List ((Char × Char) × ℤ)))
    (c : Char) (emit : ℤ) (e0 : Char × (ℤ × Option Char)) (rest : Layer) : ℤ :=
  rest.foldl
    (fun bs e => max bs (e.2.1 + hmm.get_trans e.1 c + emit + bonusAt bonus e.1 c))
    (e0.2.1 + hmm.get_trans e0.1 c + emit + bonusAt bonus e0.1 c)

/-- `IncrementalViterbi._predict_with_pinyin(pinyin)`: simulate one step
from the current last layer without mutating state. (Note the source
back-traces with a `None` start character, so each result is just the
simulated terminal character.) -/
def predictWith (cfg : IncConfig) (st : IncState) (py : String) :
    List (List Char × ℤ) :=
  let cands := candsOf cfg.candidates_map py
  if cands = [] then []
  else
    match st.dp_states.getLast? with
    | none =>
        let results := cands.map
          (fun c => ([c], cfg.hmm.get_init c + cfg.hmm.get_emit c py))
        (sortDesc (fun e => e.2) results).take 5
    | some prevL =>
        match prevL with
        | [] => []
        | e0 :: rest =>
            let next_scores : List (Char × ℤ) := cands.foldl
              (fun l c =>
                dictInsert l c
                  (bestScoreOnly cfg.hmm cfg.bigram_bonus c (cfg.hmm.get_emit c py) e0 rest))
              []
            let results := next_scores.map
              (fun e => (backtrackFrom st.dp_states none ++ [e.1], e.2))
            (sortDesc (fun e => e.2) results).take 5

/-- `IncrementalViterbi.add_pinyin_prefix(prefix)`: expand the first ten
syllables matching the prefix, simulate each, deduplicate by sequence
keeping the maximum score, sort descending, keep 5. -/
def add_pinyin_prefix (cfg : IncConfig) (st : IncState) (pre : String) :
    IncState × List (List Char × ℤ) :=
  if pre = "" then (st, get_topk_sequences st 5)
  else
    let matching := (cfg.candidates_map.map Prod.fst).filter
      (fun py => py.startsWith pre)
    if matching = [] then (st, get_topk_sequences st 5)
    else
      let allCands := (matching.take 10).flatMap (fun py => predictWith cfg st py)
      let uniqueCands : List (List Char × ℤ) := allCands.foldl
        (fun u e =>
          match alookup u e.1 with
          | none => dictInsert u e.1 e.2
          | some old => if e.2 > old then dictInsert u e.1 e.2 else u)
        []
      (st, (sortDesc (fun e => e.2) uniqueCands).take 5)

/-- The public operations of an `IncrementalViterbi` session. -/
inductive IncOp where
  | add : String → IncOp
  | del : IncOp
  | rst : IncOp
  | pfx : String → IncOp
  | query : ℕ → IncOp

/-- State transition of one public operation. `add_pinyin_prefix`,
`_predict_with_pinyin` and `get_topk_sequences` never assign to
`pinyin_buffer` or `dp_states` in the source, so they leave the state
unchanged. -/
def applyOp (cfg : IncConfig) (st : IncState) : IncOp → IncState
  | .add p => (add_pinyin cfg st p).1
  | .del => (delete_last st).1
  | .rst => reset st
  | .pfx s => ( add_pinyin_prefix cfg st s).1
  | .query _ => st

/-- Run a sequence of public operations from a fresh session. -/
def runOps (cfg : IncConfig) (ops : List IncOp) : IncState :=
  ops.foldl (applyOp cfg) IncState.empty

/-! ### Batch decoders (`viterbi_decode`, `viterbi_topk`)

In `viterbi_decode`, a layer following an empty (no-candidate) layer
stores `(-inf, None)` entries (the inner loop over the empty previous
layer never updates `best_score = -math.inf`). We model such scores as
`Option ℤ` with `none = -inf`. -/

/-- Batch trellis layer: `{char: (score, prev)}` with `none = -inf`. -/
abbrev BLayer := List (Char × (Option ℤ × Option Char))

/-- `-inf + q = -inf`. -/
def oAdd (a : Option ℤ) (b : ℤ) : Option ℤ :=
  match a with
  | none => none
  | some x => some (x + b)

/-- Strict `>` on scores where `none = -inf` (so `-inf > -inf` is false). -/
def oGt (a b : Option ℤ) : Bool :=
  match a, b with
  | none, _ => false
  | some _, none => true
  | some x, some y => x > y

/-- One main-loop iteration of `viterbi_decode` (tokens after the first):
an empty candidate list appends an empty placeholder layer; otherwise each
candidate gets the best extension over the previous layer, scanned with
`best_score = -math.inf`, `best_prev = None` and strict improvement. -/
def bstep (cm : List (String × List Char)) (hmm : HMMLike)
    (bonus : Option (List ((Char × Char) × ℤ)))
    (dp : List BLayer) (py : String) : List BLayer :=
  let cands := candsOf cm py
  let prev_layer := dp.getLast?.getD []
  if cands = [] then dp ++ [[]]
  else
    dp ++ [cands.foldl
      (fun l ch =>
        let emit := hmm.get_emit ch py
        let best := prev_layer.foldl
          (fun (best : Option ℤ × Option Char) e =>
            let s := oAdd e.2.1 (hmm.get_trans e.1 ch + emit + bonusAt bonus e.1 ch)
            if oGt s best.1 then (s, some e.1) else best)
          (none, none)
        dictInsert l ch best)
      []]

/-- The back-trace loop of `viterbi_decode` over `reversed(dp[:-1])`:
stop at a `None` pointer; a pointer to a character missing from its layer
is the uncaught `KeyError` path, modelled as `none`. Characters are
collected most-recent first. -/
def btrace : List BLayer → Option Char → Option (List Char)
  | [], _ => some []
  | _ :: _, none => some []
  | l :: rest, some p =>
      match alookup l p with
      | none => none
      | some e => (btrace rest e.2).map (fun cs => p :: cs)

/-- `viterbi_decode(pinyin_seq, ...) -> str` (`none` models the uncaught
`KeyError` during back-tracing; the source returns a string otherwise). -/
def viterbi_decode (seq : List String) (cm : List (String × List Char))
    (hmm : HMMLike) (bonus : Option (List ((Char × Char) × ℤ))) :
    Option (List Char) :=
  match seq with
  | [] => some []
  | py0 :: rest =>
      let layer0 : BLayer := (candsOf cm py0).foldl
        (fun l ch =>
          dictInsert l ch (some (hmm.get_init ch + hmm.get_emit ch py0), none))
        []
      let dp := rest.foldl (bstep cm hmm bonus) [layer0]
      match dp.getLast?.getD [] with
      | [] => some []
      | e0 :: es =>
          -- `max(last_layer.items(), key=score)`: first maximum wins
          let bl := es.foldl (fun best e => if oGt e.2.1 best.2.1 then e else best) e0
          (btrace (dp.dropLast).reverse bl.2.2).map (fun cs => (bl.1 :: cs).reverse)

/-- A beam entry of `viterbi_topk`: `(score, seq_chars, last_char)`. -/
abbrev BeamEntry := ℤ × List Char × Char

/-- One extension step of `viterbi_topk`'s beam (`new_beam`): every path
extended by every candidate of the token, in beam-major order. -/
def extendAll (cm : List (String × List Char)) (hmm : HMMLike)
    (bonus : Option (List ((Char × Char) × ℤ))) (py : String)
    (beam : List BeamEntry) : List BeamEntry :=
  beam.flatMap
    (fun e => (candsOf cm py).map
      (fun ch =>
        (e.1 + hmm.get_trans e.2.2 ch + hmm.get_emit ch py +
           bonusAt bonus e.2.2 ch,
         e.2.1 ++ [ch], ch)))

/-- The initial beam of `viterbi_topk` (before sorting/truncation):
one single-character path per candidate of the first token. -/
def initEntries (cm : List (String × List Char)) (hmm : HMMLike) (py0 : String) :
    List BeamEntry :=
  (candsOf cm py0).map (fun ch => (hmm.get_init ch + hmm.get_emit ch py0, [ch], ch))

/-- The main loop of `viterbi_topk`: a token with no candidates is
skipped (`continue`); otherwise every beam path is extended by every
candidate (beam-major order), and an empty extension set stops the loop
(`break`), else the extensions are sorted descending and cut to
`beam_size`. -/
def vtopkLoop (cm : List (String × List Char)) (hmm : HMMLike)
    (bonus : Option (List ((Char × Char) × ℤ))) (beam_size : ℕ) :
    List String → List BeamEntry → List BeamEntry
  | [], beam => beam
  | py :: rest, beam =>
      if candsOf cm py = [] then vtopkLoop cm hmm bonus beam_size rest beam
      else
        let new_beam := extendAll cm hmm bonus py beam
        if new_beam = [] then beam
        else vtopkLoop cm hmm bonus beam_size rest
          ((sortDesc (fun e => e.1) new_beam).take beam_size)

/-- `viterbi_topk(pinyin_seq, candidates_map, hmm, k, beam_size, ...)`:
beam search returning the top `k` `(sequence, score)` pairs. -/
def viterbi_topk (seq : List String) (cm : List (String × List Char))
    (hmm : HMMLike) (k : ℕ) (beam_size : Option ℕ)
    (bonus : Option (List ((Char × Char) × ℤ))) : List (List Char × ℤ) :=
  match seq with
  | [] => []
  | py0 :: rest =>
      let bs := beam_size.getD k
      let beam := vtopkLoop cm hmm bonus bs rest
        ((sortDesc (fun e => e.1) (initEntries cm hmm py0)).take bs)
      let results := beam.map (fun e => (e.2.1, e.1))
      (sortDesc (fun e => e.2) results).take k

/-! ## Helper lemmas on the dict / sort operations -/

theorem dictInsert_ne_nil {κ α : Type} [DecidableEq κ] (l : List (κ × α)) (k : κ) (v : α) :
    dictInsert l k v ≠ [] := by
  cases l with
  | nil => simp [dictInsert]
  | cons e rest =>
      unfold dictInsert
      split <;> simp

theorem mem_dictInsert {κ α : Type} [DecidableEq κ] (l : List (κ × α)) (k : κ) (v : α)
    (e : κ × α) (h : e ∈ dictInsert l k v) : e = (k, v) ∨ e ∈ l := by
  induction l with
  | nil => simpa [dictInsert] using h
  | cons f rest ih =>
      unfold dictInsert at h
      split at h
      · rcases List.mem_cons.mp h with h1 | h1
        · exact Or.inl h1
        · exact Or.inr (List.mem_cons.mpr (Or.inr h1))
      · rcases List.mem_cons.mp h with h1 | h1
        · exact Or.inr (List.mem_cons.mpr (Or.inl h1))
        · rcases ih h1 with h2 | h2
          · exact Or.inl h2
          · exact Or.inr (List.mem_cons.mpr (Or.inr h2))

theorem alookup_mem {κ α : Type} [DecidableEq κ] (l : List (κ × α)) (k : κ) (v : α)
    (h : alookup l k = some v) : (k, v) ∈ l := by
  induction l with
  | nil => simp [alookup] at h
  | cons e rest ih =>
      unfold alookup at h
      split at h
      · rename_i heq
        rcases Option.some_inj.mp h with rfl
        rcases heq with rfl
        exact List.mem_cons.mpr (Or.inl rfl)
      · exact List.mem_cons.mpr (Or.inr (ih h))

theorem foldl_dictInsert_ne_nil {κ α β : Type} [DecidableEq κ]
    (f : β → κ) (g : β → α) (cands : List β) (acc : List (κ × α))
    (h : acc ≠ [] ∨ cands ≠ []) :
    cands.foldl (fun l c => dictInsert l (f c) (g c)) acc ≠ [] := by
  induction cands generalizing acc with
  | nil =>
      rcases h with h | h
      · simpa using h
      · simp at h
  | cons c cs ih =>
      exact ih (dictInsert acc (f c) (g c)) (Or.inl (dictInsert_ne_nil _ _ _))

/-! ## Toy instances used by witnesses and counterexamples -/

/-- A small scoring model: `n` is preferred initially, transitions and
emissions are flat. -/
def hmmDemo : HMMLike where
  get_init := fun c => if c = 'n' then 2 else 1
  get_trans := fun _ _ => 0
  get_emit := fun _ _ => 0

/-- A two-syllable lexicon; `zz` is deliberately absent. -/
def cfgDemo : IncConfig where
  candidates_map := [("ni", ['n', 'm']), ("hao", ['h'])]
  hmm := hmmDemo
  beam_size := 100
  bigram_bonus := none

/-- `cfgDemo` with `beam_size = 1`. -/
def cfgBeam1 : IncConfig where
  candidates_map := [("ni", ['n', 'm']), ("hao", ['h'])]
  hmm := hmmDemo
  beam_size := 1
  bigram_bonus := none

/-- The session `append("ni")` from a fresh `cfgDemo` decoder. -/
def stNi : IncState := (add_pinyin cfgDemo IncState.empty "ni").1

/-! ## C10: backspace on an empty session -/

/-- C10: on an empty session (empty buffer, no layers), `delete_last` is
a no-op: buffer and layers stay empty, the returned list is empty, and
(being a total function of the state) nothing is raised. -/
theorem claim_C10 : delete_last IncState.empty = (IncState.empty, []) := rfl

/-! ## C6: missing parameter entries yield `NEG_INF` -/

/-- C6: for any `HMMParams` and any absent key, `get_init`, `get_trans`
and `get_emit` return exactly `NEG_INF = -1e9`; the hypotheses for
`trans`/`emit` (`key not in outer.get(k, {})`) cover both an absent outer
key and a present outer key with an absent inner key. -/
theorem claim_C6 (m : HMMParams) (c1 pc c2 ec : Char) (py : String)
    (h1 : alookup m.init_log_probs c1 = none)
    (h2 : alookup ((alookup m.trans_log_probs pc).getD []) c2 = none)
    (h3 : alookup ((alookup m.emit_log_probs ec).getD []) py = none) :
    m.get_init c1 = NEG_INF ∧ m.get_trans pc c2 = NEG_INF ∧ m.get_emit ec py = NEG_INF := by
  unfold HMMParams.get_init HMMParams.get_trans HMMParams.get_emit
  rw [h1, h2, h3]
  exact ⟨rfl, rfl, rfl⟩

/-- A concrete parameter store: `'a'` is the only outer key everywhere. -/
def hmmStore6 : HMMParams where
  init_log_probs := [('a', 1)]
  trans_log_probs := [('a', [('b', 2)])]
  emit_log_probs := [('a', [("x", 3)])]

/-- C6 witness: `'z'` absent from `init`; `('a','c')` with outer key
present but inner key absent in `trans`; `'q'` absent from `emit`. -/
theorem claim_C6_witness :
    (alookup hmmStore6.init_log_probs 'z' = none ∧
     alookup ((alookup hmmStore6.trans_log_probs 'a').getD []) 'c' = none ∧
     alookup ((alookup hmmStore6.emit_log_probs 'q').getD []) "y" = none) ∧
    (hmmStore6.get_init 'z' = NEG_INF ∧ hmmStore6.get_trans 'a' 'c' = NEG_INF ∧
     hmmStore6.get_emit 'q' "y" = NEG_INF) :=
  ⟨⟨by decide, by decide, by decide⟩,
   claim_C6 hmmStore6 'z' 'a' 'c' 'q' "y" (by decide) (by decide) (by decide)⟩

/-! ## C2: append of a pinyin with no candidates -/

/-- `get_topk_sequences` on a state whose last layer is empty. -/
theorem get_topk_emptyLast (buf : List String) (dp : List Layer) (k : ℕ) :
    get_topk_sequences ⟨buf, dp ++ [[]]⟩ k = [] := by
  unfold get_topk_sequences
  simp [List.getLast?_concat]

/-- C2 counterexample: in the session `append("ni")` (one non-empty layer
exists), appending the unknown pinyin `"zz"` returns the empty list, not
the top-k of the last non-empty layer (which is non-empty). -/
theorem claim_C2_cex :
    candsOf cfgDemo.candidates_map "zz" = [] ∧
    stNi.dp_states = [[('n', (2, none)), ('m', (1, none))]] ∧
    get_topk_sequences stNi 5 = [(['n'], 2), (['m'], 1)] ∧
    (add_pinyin cfgDemo stNi "zz").2 = [] := by
  refine ⟨by decide, by decide, by decide, ?_⟩
  decide

/-- C2 (amended): appending a non-empty pinyin with no candidates pushes
an empty layer and always returns the empty list (`get_topk_sequences`
reads only the last layer, which is now empty). -/
theorem claim_C2_amended (cfg : IncConfig) (st : IncState) (p : String)
    (hp : p ≠ "") (hc : candsOf cfg.candidates_map p = []) :
    add_pinyin cfg st p =
      (⟨st.pinyin_buffer ++ [p], st.dp_states ++ [[]]⟩, []) := by
  unfold add_pinyin
  rw [if_neg hp]
  simp only [hc, if_pos]
  rw [get_topk_emptyLast]

/-- C2 witness: the amended statement at the concrete dead-end append. -/
theorem claim_C2_amended_witness :
    (("zz" : String) ≠ "" ∧ candsOf cfgDemo.candidates_map "zz" = []) ∧
    add_pinyin cfgDemo stNi "zz" =
      (⟨stNi.pinyin_buffer ++ ["zz"], stNi.dp_states ++ [[]]⟩, []) :=
  ⟨⟨by decide, by decide⟩, claim_C2_amended cfgDemo stNi "zz" (by decide) (by decide)⟩

/-! ## C7: beam pruning -/

/-- A pruned layer never exceeds `beam_size` entries. -/
theorem pruneLayer_length_le (bs : ℕ) (l : Layer) : (pruneLayer bs l).length ≤ bs := by
  unfold pruneLayer
  split
  · simp [List.length_take, length_sortDesc]
  · omega

/-- C7 counterexample: with `beam_size = 1`, the very first append builds
a two-entry layer — the initial-state branch of `add_pinyin` never
prunes, refuting the claim's "including the first token". -/
theorem claim_C7_cex :
    cfgBeam1.beam_size = 1 ∧
    (add_pinyin cfgBeam1 IncState.empty "ni").1.dp_states.map List.length = [2] := by
  exact ⟨rfl, by decide⟩

/-- C7 (amended): beam pruning applies only to layers built by the
DP-extension branch: whenever the previous layer exists and is non-empty
(and the appended pinyin is non-empty with candidates), the newly built
layer has at most `beam_size` entries. Layers built by the initial-state
or dead-end-restart branch are not pruned and may exceed `beam_size`. -/
theorem claim_C7_amended (cfg : IncConfig) (st : IncState) (p : String)
    (prevL : Layer) (hp : p ≠ "") (hc : candsOf cfg.candidates_map p ≠ [])
    (hb : st.pinyin_buffer ≠ [])
    (hprev : (st.dp_states.drop (st.pinyin_buffer.length - 1)).head? = some prevL)
    (hne : prevL ≠ []) :
    ∃ l, (add_pinyin cfg st p).1.dp_states = st.dp_states ++ [l] ∧
      l.length ≤ cfg.beam_size := by
  cases prevL with
  | nil => exact absurd rfl hne
  | cons e0 rest =>
      unfold add_pinyin
      rw [if_neg hp, if_neg hc, if_neg hb, hprev]
      exact ⟨_, rfl, pruneLayer_length_le _ _⟩

/-- C7 witness: the DP append `append("hao")` after `append("ni")`. -/
theorem claim_C7_amended_witness :
    (("hao" : String) ≠ "" ∧ candsOf cfgDemo.candidates_map "hao" ≠ [] ∧
     stNi.pinyin_buffer ≠ [] ∧
     (stNi.dp_states.drop (stNi.pinyin_buffer.length - 1)).head? =
       some [('n', (2, none)), ('m', (1, none))] ∧
     ([('n', ((2 : ℤ), (none : Option Char))), ('m', (1, none))] : Layer) ≠ []) ∧
    ∃ l, (add_pinyin cfgDemo stNi "hao").1.dp_states = stNi.dp_states ++ [l] ∧
      l.length ≤ cfgDemo.beam_size :=
  ⟨⟨by decide, by decide, by decide, by decide, by decide⟩,
   claim_C7_amended cfgDemo stNi "hao" [('n', (2, none)), ('m', (1, none))]
     (by decide) (by decide) (by decide) (by decide) (by decide)⟩

/-! ## C4: buffer length equals layer count -/

/-- For a non-empty pinyin, `add_pinyin` pushes exactly one buffer entry
and one layer (every branch of the source does both appends). -/
theorem add_pinyin_shape (cfg : IncConfig) (st : IncState) (p : String) (hp : p ≠ "") :
    ∃ l, (add_pinyin cfg st p).1 = ⟨st.pinyin_buffer ++ [p], st.dp_states ++ [l]⟩ := by
  unfold add_pinyin
  rw [if_neg hp]
  by_cases hc : candsOf cfg.candidates_map p = []
  · rw [if_pos hc]; exact ⟨[], rfl⟩
  · rw [if_neg hc]
    by_cases hb : st.pinyin_buffer = []
    · rw [if_pos hb]; exact ⟨_, rfl⟩
    · rw [if_neg hb]
      rcases hh : (st.dp_states.drop (st.pinyin_buffer.length - 1)).head? with _ | prevL
      · exact ⟨_, rfl⟩
      · cases prevL with
        | nil => exact ⟨_, rfl⟩
        | cons e0 rest => exact ⟨_, rfl⟩

/-- The state component of `add_pinyin_prefix` is always the input state
(the source never assigns to the buffer or the layers there). -/
theorem add_pinyin_prefix_fst (cfg : IncConfig) (st : IncState) (s : String) :
    ( add_pinyin_prefix cfg st s).1 = st := by
  unfold add_pinyin_prefix
  split
  · rfl
  · dsimp only
    split
    · rfl
    · rfl

/-- The state component of `delete_last`. -/
theorem delete_last_fst (st : IncState) :
    (delete_last st).1 =
      if st.pinyin_buffer = [] then st
      else ⟨st.pinyin_buffer.dropLast, st.dp_states.dropLast⟩ := rfl

/-- Each public operation preserves `|pinyin_buffer| = |dp_states|`. -/
theorem applyOp_len (cfg : IncConfig) (st : IncState) (op : IncOp)
    (h : st.pinyin_buffer.length = st.dp_states.length) :
    (applyOp cfg st op).pinyin_buffer.length = (applyOp cfg st op).dp_states.length := by
  cases op with
  | add p =>
      have happ : applyOp cfg st (IncOp.add p) = (add_pinyin cfg st p).1 := rfl
      by_cases hp : p = ""
      · have hid : (add_pinyin cfg st p).1 = st := by
          unfold add_pinyin; rw [if_pos hp]
        rw [happ, hid]; exact h
      · obtain ⟨l, hl⟩ := add_pinyin_shape cfg st p hp
        rw [happ, hl]
        simp [h]
  | del =>
      have happ : applyOp cfg st IncOp.del = (delete_last st).1 := rfl
      rw [happ, delete_last_fst]
      split
      · exact h
      · simp [h]
  | rst => rfl
  | pfx s =>
      have happ : applyOp cfg st (IncOp.pfx s) = ( add_pinyin_prefix cfg st s).1 := rfl
      rw [happ, add_pinyin_prefix_fst]
      exact h
  | query k => exact h

/-- C4: for every configuration and every sequence of public operations
(`add_pinyin`, `delete_last`, `reset`, `add_pinyin_prefix`,
`get_topk_sequences`) run from a fresh session, the pinyin buffer and the
trellis layer list have equal length after every operation. -/
theorem claim_C4 (cfg : IncConfig) (ops : List IncOp) :
    (runOps cfg ops).pinyin_buffer.length = (runOps cfg ops).dp_states.length := by
  suffices h : ∀ (l : List IncOp) (st : IncState),
      st.pinyin_buffer.length = st.dp_states.length →
      (l.foldl (applyOp cfg) st).pinyin_buffer.length =
        (l.foldl (applyOp cfg) st).dp_states.length from
    h ops IncState.empty rfl
  intro l
  induction l with
  | nil => intro st h; exact h
  | cons op rest ih =>
      intro st h
      exact ih _ (applyOp_len cfg st op h)

/-! ## C5: backspace undoes append -/

/-- C5: for any session and non-empty pinyin `P`, `delete_last` after
`add_pinyin(P)` restores exactly the prior buffer and layers, and the
top-k query afterwards returns the same list as before the append. -/
theorem claim_C5 (cfg : IncConfig) (st : IncState) (p : String) (k : ℕ) (hp : p ≠ "") :
    (delete_last (add_pinyin cfg st p).1).1 = st ∧
    get_topk_sequences (delete_last (add_pinyin cfg st p).1).1 k =
      get_topk_sequences st k := by
  obtain ⟨l, hl⟩ := add_pinyin_shape cfg st p hp
  have hrestore : (delete_last (add_pinyin cfg st p).1).1 = st := by
    rw [hl]
    unfold delete_last
    have hne : st.pinyin_buffer ++ [p] ≠ [] := by simp
    rw [if_neg hne]
    simp [List.dropLast_concat]
  exact ⟨hrestore, by rw [hrestore]⟩

/-- C5 witness: append `"hao"` to the `append("ni")` session, backspace,
and compare the top-5 queries. -/
theorem claim_C5_witness :
    (("hao" : String) ≠ "") ∧
    ((delete_last (add_pinyin cfgDemo stNi "hao").1).1 = stNi ∧
     get_topk_sequences (delete_last (add_pinyin cfgDemo stNi "hao").1).1 5 =
       get_topk_sequences stNi 5) :=
  ⟨by decide, claim_C5 cfgDemo stNi "hao" 5 (by decide)⟩

/-! ## C9: save/load round trip -/

theorem decCharKey_mk (c : Char) : decCharKey (String.mk [c]) = some c := rfl

theorem decCharTable_enc (t : List (Char × ℤ)) :
    decCharTable (t.map fun e => (String.mk [e.1], JVal.num e.2)) = some t := by
  induction t with
  | nil => rfl
  | cons e rest ih =>
      simp only [List.map_cons, decCharTable, decCharKey_mk, ih, Option.map_some',
        Prod.mk.eta]

theorem decStrTable_enc (t : List (String × ℤ)) :
    decStrTable (t.map fun p => (p.1, JVal.num p.2)) = some t := by
  induction t with
  | nil => rfl
  | cons e rest ih =>
      simp only [List.map_cons, decStrTable, ih, Option.map_some', Prod.mk.eta]

theorem decTransTable_enc (t : List (Char × List (Char × ℤ))) :
    decTransTable
      (t.map fun e =>
        (String.mk [e.1], JVal.obj (e.2.map fun p => (String.mk [p.1], JVal.num p.2))))
      = some t := by
  induction t with
  | nil => rfl
  | cons e rest ih =>
      simp only [List.map_cons, decTransTable, decCharKey_mk, decCharTable_enc, ih,
        Option.map_some', Prod.mk.eta]

theorem decEmitTable_enc (t : List (Char × List (String × ℤ))) :
    decEmitTable
      (t.map fun e => (String.mk [e.1], JVal.obj (e.2.map fun p => (p.1, JVal.num p.2))))
      = some t := by
  induction t with
  | nil => rfl
  | cons e rest ih =>
      simp only [List.map_cons, decEmitTable, decCharKey_mk, ih, decStrTable_enc,
        Option.map_some', Prod.mk.eta]

/-- C9: loading the value produced by `save` yields a store whose three
tables equal the original, so every point query (`get_init`, `get_trans`,
`get_emit`) agrees between the original and the reloaded store. -/
theorem claim_C9 (m : HMMParams) : HMMParams.load m.save = some m := by
  obtain ⟨ti, tt, te⟩ := m
  show HMMParams.load (JVal.obj
    [("init", encCharTable ti), ("trans", encTransTable tt), ("emit", encEmitTable te)])
      = some ⟨ti, tt, te⟩
  unfold HMMParams.load
  dsimp only
  rw [show alookup [("init", encCharTable ti), ("trans", encTransTable tt),
        ("emit", encEmitTable te)] "init" = some (encCharTable ti) from rfl,
      show alookup [("init", encCharTable ti), ("trans", encTransTable tt),
        ("emit", encEmitTable te)] "trans" = some (encTransTable tt) from rfl,
      show alookup [("init", encCharTable ti), ("trans", encTransTable tt),
        ("emit", encEmitTable te)] "emit" = some (encEmitTable te) from rfl]
  simp only [encCharTable, encTransTable, encEmitTable]
  simp only [decCharTable_enc, decTransTable_enc, decEmitTable_enc]

/-! ## C3: a no-candidate token in `viterbi_topk` -/

/-- C3 counterexample: on `["ni","zz","hao"]` with `zz` unknown, the
claim predicts the best `k` of the beam accumulated before `"zz"`
(single-character strings, as returned on `["ni"]` alone), but the code
`continue`s past `"zz"` and still extends the beam with `"hao"`. -/
theorem claim_C3_cex :
    candsOf cfgDemo.candidates_map "zz" = [] ∧
    viterbi_topk ["ni", "zz", "hao"] cfgDemo.candidates_map hmmDemo 5 (some 10) none =
      [(['n', 'h'], 2), (['m', 'h'], 1)] ∧
    viterbi_topk ["ni"] cfgDemo.candidates_map hmmDemo 5 (some 10) none =
      [(['n'], 2), (['m'], 1)] ∧
    viterbi_topk ["ni", "zz", "hao"] cfgDemo.candidates_map hmmDemo 5 (some 10) none ≠
      viterbi_topk ["ni"] cfgDemo.candidates_map hmmDemo 5 (some 10) none := by
  exact ⟨by decide, by decide, by decide, by decide⟩

/-- The main loop of `viterbi_topk` ignores a no-candidate token wherever
it occurs: the `continue` leaves the beam unchanged and iteration
proceeds with the remaining tokens. -/
theorem vtopkLoop_skip (cm : List (String × List Char)) (hmm : HMMLike)
    (bonus : Option (List ((Char × Char) × ℤ))) (bs : ℕ) (bad : String)
    (hc : candsOf cm bad = []) (xs ys : List String) (beam : List BeamEntry) :
    vtopkLoop cm hmm bonus bs (xs ++ bad :: ys) beam =
      vtopkLoop cm hmm bonus bs (xs ++ ys) beam := by
  induction xs generalizing beam with
  | nil =>
      simp only [List.nil_append]
      conv_lhs => rw [vtopkLoop]
      simp only [hc, if_pos]
  | cons x xs ih =>
      simp only [List.cons_append]
      conv_lhs => rw [vtopkLoop]
      conv_rhs => rw [vtopkLoop]
      dsimp only
      by_cases hx : candsOf cm x = []
      · rw [if_pos hx, if_pos hx]
        exact ih beam
      · rw [if_neg hx, if_neg hx]
        split
        · rfl
        · exact ih _

/-- C3 (amended): a token with no candidates at any position after the
first is skipped, not short-circuited: `viterbi_topk` returns exactly the
result of decoding the sequence with that token removed, so later tokens
do keep extending the beam. (Iteration stops early only when the beam
itself becomes empty.) -/
theorem claim_C3_amended (cm : List (String × List Char)) (hmm : HMMLike)
    (bonus : Option (List ((Char × Char) × ℤ))) (k : ℕ) (bs : Option ℕ)
    (py0 bad : String) (mid post : List String)
    (hc : candsOf cm bad = []) :
    viterbi_topk (py0 :: (mid ++ bad :: post)) cm hmm k bs bonus =
      viterbi_topk (py0 :: (mid ++ post)) cm hmm k bs bonus := by
  unfold viterbi_topk
  dsimp only
  rw [vtopkLoop_skip cm hmm bonus _ bad hc mid post]

/-- C3 witness: removing the dead token `"zz"` leaves the result intact. -/
theorem claim_C3_amended_witness :
    candsOf cfgDemo.candidates_map "zz" = [] ∧
    viterbi_topk ("ni" :: ([] ++ "zz" :: ["hao"])) cfgDemo.candidates_map hmmDemo 5
        (some 10) none =
      viterbi_topk ("ni" :: ([] ++ ["hao"])) cfgDemo.candidates_map hmmDemo 5
        (some 10) none :=
  ⟨by decide,
   claim_C3_amended cfgDemo.candidates_map hmmDemo none 5 (some 10) "ni" "zz" []
     ["hao"] (by decide)⟩

/-! ## C8: back-trace lengths -/

/-- The key list of a trellis layer. -/
def layerKeys (l : Layer) : List Char := l.map Prod.fst

/-- Back-pointer integrity of a trellis (listed most-recent first):每
every entry of a non-oldest layer points at a key of the layer below. -/
def chainInv : List Layer → Prop
  | [] => True
  | [_] => True
  | l :: l2 :: rest =>
      (∀ e ∈ l, ∃ p, e.2.2 = some p ∧ p ∈ layerKeys l2) ∧ chainInv (l2 :: rest)

theorem alookup_some_of_mem_keys {κ α : Type} [DecidableEq κ]
    (l : List (κ × α)) (k : κ) (h : k ∈ l.map Prod.fst) :
    ∃ v, alookup l k = some v := by
  induction l with
  | nil => simp at h
  | cons e rest ih =>
      unfold alookup
      by_cases hk : k = e.1
      · exact ⟨e.2, if_pos hk⟩
      · have h2 : k ∈ rest.map Prod.fst := by
          rcases List.mem_map.mp h with ⟨x, hx, hfx⟩
          rcases List.mem_cons.mp hx with h3 | h3
          · exact absurd (by rw [← hfx, h3]) hk
          · exact List.mem_map.mpr ⟨x, h3, hfx⟩
        obtain ⟨v, hv⟩ := ih h2
        exact ⟨v, by rw [if_neg hk]; exact hv⟩

/-- A full back-walk over a trellis with intact back-pointers visits every
layer exactly once. -/
theorem backAux_length (ls : List Layer) (hinv : chainInv ls) (c : Char)
    (hc : c ∈ layerKeys (ls.headD [])) : (backAux ls c).length = ls.length := by
  induction ls generalizing c with
  | nil => simp [layerKeys] at hc
  | cons l rest ih =>
      cases rest with
      | nil => rfl
      | cons l2 rest2 =>
          obtain ⟨hpt, hinv2⟩ := hinv
          obtain ⟨v, hv⟩ := alookup_some_of_mem_keys l c (by simpa [layerKeys] using hc)
          obtain ⟨p, hp, hpmem⟩ := hpt (c, v) (alookup_mem l c v hv)
          obtain ⟨vs, vb⟩ := v
          simp only at hp
          subst hp
          show (backAux (l :: l2 :: rest2) c).length = _
          unfold backAux
          rw [hv]
          have := ih hinv2 p (by simpa using hpmem)
          simp [this]

/-- Entries produced by a `dict`-building fold are exactly the inserted
key/value pairs (or come from the accumulator). -/
theorem mem_foldl_dictInsert {κ α β : Type} [DecidableEq κ]
    (f : β → κ) (g : β → α) (cands : List β) (acc : List (κ × α)) (e : κ × α)
    (h : e ∈ cands.foldl (fun l c => dictInsert l (f c) (g c)) acc) :
    e ∈ acc ∨ ∃ c ∈ cands, e = (f c, g c) := by
  induction cands generalizing acc with
  | nil => exact Or.inl h
  | cons c cs ih =>
      rcases ih (dictInsert acc (f c) (g c)) h with h1 | h1
      · rcases mem_dictInsert acc (f c) (g c) e h1 with h2 | h2
        · exact Or.inr ⟨c, List.mem_cons_self c cs, h2⟩
        · exact Or.inl h2
      · obtain ⟨c', hc', he⟩ := h1
        exact Or.inr ⟨c', List.mem_cons_of_mem c hc', he⟩

/-- The scan of `best_score`/`best_prev` only ever selects characters of
the scanned layer (or keeps the seed). -/
theorem foldl_best_mem (hmm : HMMLike) (bonus : Option (List ((Char × Char) × ℤ)))
    (c : Char) (emit : ℤ) :
    ∀ (l : Layer) (b : ℤ × Char) (S : List Char), b.2 ∈ S → (∀ e ∈ l, e.1 ∈ S) →
      (l.foldl
        (fun best e =>
          let s := e.2.1 + hmm.get_trans e.1 c + emit + bonusAt bonus e.1 c
          if s > best.1 then (s, e.1) else best)
        b).2 ∈ S := by
  intro l
  induction l with
  | nil => intro b S hb _; exact hb
  | cons e es ih =>
      intro b S hb he
      simp only [List.foldl_cons]
      apply ih
      · dsimp only
        split
        · exact he e (List.mem_cons_self e es)
        · exact hb
      · intro x hx
        exact he x (List.mem_cons_of_mem e hx)

/-- The best predecessor chosen by `add_pinyin`'s DP branch is a key of
the previous layer. -/
theorem bestOver_snd_mem (hmm : HMMLike) (bonus : Option (List ((Char × Char) × ℤ)))
    (c : Char) (emit : ℤ) (e0 : Char × (ℤ × Option Char)) (rest : Layer) :
    (bestOver hmm bonus c emit e0 rest).2 ∈ e0.1 :: rest.map Prod.fst := by
  unfold bestOver
  exact foldl_best_mem hmm bonus c emit rest _ _ (List.mem_cons_self _ _)
    (fun e he => List.mem_cons_of_mem _ (List.mem_map_of_mem Prod.fst he))

/-- Pruning only removes entries. -/
theorem pruneLayer_subset (bs : ℕ) (l : Layer) (e : Char × (ℤ × Option Char))
    (h : e ∈ pruneLayer bs l) : e ∈ l := by
  unfold pruneLayer at h
  split at h
  · exact (sortDesc_perm (fun e => e.2.1) l).subset (List.take_subset _ _ h)
  · exact h

/-- Pruning a non-empty layer with a positive beam keeps it non-empty. -/
theorem pruneLayer_ne_nil (bs : ℕ) (l : Layer) (hbs : 1 ≤ bs) (hl : l ≠ []) :
    pruneLayer bs l ≠ [] := by
  unfold pruneLayer
  split
  · rename_i hlen
    have h1 : (sortDesc (fun e => e.2.1) l).length = l.length := length_sortDesc _ _
    intro hnil
    have := congrArg List.length hnil
    simp only [List.length_take, h1, List.length_nil] at this
    omega
  · exact hl

/-- `initLayer` of a non-empty candidate list is non-empty. -/
theorem initLayer_ne_nil (hmm : HMMLike) (cands : List Char) (py : String)
    (hc : cands ≠ []) : initLayer hmm cands py ≠ [] := by
  unfold initLayer
  exact foldl_dictInsert_ne_nil _ _ cands [] (Or.inr hc)

/-- `extendLayer` of a non-empty candidate list is non-empty. -/
theorem extendLayer_ne_nil (hmm : HMMLike) (bonus : Option (List ((Char × Char) × ℤ)))
    (e0 : Char × (ℤ × Option Char)) (rest : Layer) (cands : List Char) (py : String)
    (hc : cands ≠ []) : extendLayer hmm bonus e0 rest cands py ≠ [] := by
  unfold extendLayer
  exact foldl_dictInsert_ne_nil _ _ cands [] (Or.inr hc)

/-- `dp_states[t-1]` for the append of token `t+1` is the last layer. -/
theorem drop_pred_head {α : Type} (l : List α) (hl : l ≠ []) :
    (l.drop (l.length - 1)).head? = l.getLast? := by
  induction l with
  | nil => exact absurd rfl hl
  | cons x t ih =>
      cases t with
      | nil => rfl
      | cons y t2 =>
          have h1 : (x :: y :: t2).length - 1 = t2.length + 1 := by simp
          rw [h1]
          have h2 : (x :: y :: t2).drop (t2.length + 1) = (y :: t2).drop t2.length := rfl
          rw [h2, List.getLast?_cons_cons]
          have h3 := ih (by simp)
          have h4 : (y :: t2).length - 1 = t2.length := by simp
          rw [h4] at h3
          exact h3

/-- Entries of the DP-extension layer are `(c, (best.1, some best.2))`
for a candidate `c`. -/
theorem mem_extendLayer (hmm : HMMLike) (bonus : Option (List ((Char × Char) × ℤ)))
    (e0 : Char × (ℤ × Option Char)) (rest : Layer) (cands : List Char) (py : String)
    (e : Char × (ℤ × Option Char)) (h : e ∈ extendLayer hmm bonus e0 rest cands py) :
    ∃ c ∈ cands,
      e = (c, ((bestOver hmm bonus c (hmm.get_emit c py) e0 rest).1,
               some (bestOver hmm bonus c (hmm.get_emit c py) e0 rest).2)) := by
  unfold extendLayer at h
  have h2 := mem_foldl_dictInsert (fun c => c)
    (fun c => ((bestOver hmm bonus c (hmm.get_emit c py) e0 rest).1,
               some (bestOver hmm bonus c (hmm.get_emit c py) e0 rest).2))
    cands [] e h
  rcases h2 with h2 | h2
  · simp at h2
  · exact h2

/-- One non-dead-end append: both lists grow by the new layer, the new
layer is non-empty, and back-pointer integrity extends. -/
theorem add_pinyin_inv (cfg : IncConfig) (st : IncState) (p : String)
    (hbs : 1 ≤ cfg.beam_size) (hp : p ≠ "")
    (hc : candsOf cfg.candidates_map p ≠ [])
    (hlen : st.pinyin_buffer.length = st.dp_states.length)
    (hne : ∀ l ∈ st.dp_states, l ≠ [])
    (hchain : chainInv st.dp_states.reverse) :
    ∃ nl, (add_pinyin cfg st p).1 = ⟨st.pinyin_buffer ++ [p], st.dp_states ++ [nl]⟩ ∧
      nl ≠ [] ∧ chainInv (st.dp_states ++ [nl]).reverse := by
  unfold add_pinyin
  rw [if_neg hp, if_neg hc]
  by_cases hb : st.pinyin_buffer = []
  · have hdp : st.dp_states = [] := by
      have h0 := hlen
      rw [hb] at h0
      exact List.length_eq_zero.mp h0.symm
    rw [if_pos hb]
    refine ⟨initLayer cfg.hmm (candsOf cfg.candidates_map p) p, rfl,
      initLayer_ne_nil _ _ _ hc, ?_⟩
    rw [hdp]
    simp only [List.nil_append, List.reverse_cons, List.reverse_nil]
    trivial
  · have hdpne : st.dp_states ≠ [] := by
      intro h0
      rw [h0] at hlen
      exact hb (List.length_eq_zero.mp (by simpa using hlen))
    rw [if_neg hb]
    cases hL : st.dp_states.getLast? with
    | none => exact absurd (List.getLast?_eq_none_iff.mp hL) hdpne
    | some L =>
        have hdrop : (st.dp_states.drop (st.pinyin_buffer.length - 1)).head? = some L := by
          rw [hlen, drop_pred_head st.dp_states hdpne]
          exact hL
        have hLmem : L ∈ st.dp_states := by
          obtain ⟨h9, heq⟩ := List.mem_getLast?_eq_getLast (Option.mem_def.mpr hL)
          rw [heq]
          exact List.getLast_mem h9
        have hLne : L ≠ [] := hne L hLmem
        cases L with
        | nil => exact absurd rfl hLne
        | cons e0 rest =>
            rw [hdrop]
            refine ⟨_, rfl, pruneLayer_ne_nil _ _ hbs
              (extendLayer_ne_nil _ _ _ _ _ _ hc), ?_⟩
            have hsplit : st.dp_states = st.dp_states.dropLast ++ [e0 :: rest] := by
              conv_lhs => rw [← List.dropLast_append_getLast hdpne]
              rw [List.getLast?_eq_getLast_of_ne_nil hdpne] at hL
              rw [Option.some_inj.mp hL]
            have hrevform : st.dp_states.reverse =
                (e0 :: rest) :: st.dp_states.dropLast.reverse := by
              conv_lhs => rw [hsplit]
              rw [List.reverse_append]
              rfl
            rw [List.reverse_append]
            simp only [List.reverse_cons, List.reverse_nil, List.nil_append,
              List.singleton_append]
            rw [hrevform]
            refine ⟨?_, ?_⟩
            · intro e he
              obtain ⟨c, _, hce⟩ := mem_extendLayer cfg.hmm cfg.bigram_bonus e0 rest
                (candsOf cfg.candidates_map p) p e
                (pruneLayer_subset cfg.beam_size _ e he)
              exact ⟨(bestOver cfg.hmm cfg.bigram_bonus c (cfg.hmm.get_emit c p) e0 rest).2,
                by rw [hce],
                bestOver_snd_mem cfg.hmm cfg.bigram_bonus c (cfg.hmm.get_emit c p) e0 rest⟩
            · rw [← hrevform]
              exact hchain

/-- Run a sequence of appends from a fresh session. -/
def runAdds (cfg : IncConfig) (ps : List String) : IncState :=
  ps.foldl (fun st p => (add_pinyin cfg st p).1) IncState.empty

/-- The session invariant along a dead-end-free run of appends. -/
theorem runAdds_inv (cfg : IncConfig) (hbs : 1 ≤ cfg.beam_size) :
    ∀ (ps : List String) (st : IncState),
      (∀ p ∈ ps, p ≠ "" ∧ candsOf cfg.candidates_map p ≠ []) →
      st.pinyin_buffer.length = st.dp_states.length →
      (∀ l ∈ st.dp_states, l ≠ []) →
      chainInv st.dp_states.reverse →
      (ps.foldl (fun s p => (add_pinyin cfg s p).1) st).pinyin_buffer.length =
          (ps.foldl (fun s p => (add_pinyin cfg s p).1) st).dp_states.length ∧
        (∀ l ∈ (ps.foldl (fun s p => (add_pinyin cfg s p).1) st).dp_states, l ≠ []) ∧
        chainInv (ps.foldl (fun s p => (add_pinyin cfg s p).1) st).dp_states.reverse ∧
        (ps.foldl (fun s p => (add_pinyin cfg s p).1) st).pinyin_buffer.length =
          st.pinyin_buffer.length + ps.length := by
  intro ps
  induction ps with
  | nil => intro st _ h1 h2 h3; exact ⟨h1, h2, h3, by simp⟩
  | cons p rest ih =>
      intro st hps hlen hne hchain
      obtain ⟨hp, hc⟩ := hps p (List.mem_cons_self p rest)
      obtain ⟨nl, hst, hnl, hch⟩ := add_pinyin_inv cfg st p hbs hp hc hlen hne hchain
      simp only [List.foldl_cons, hst]
      have hlen' : (st.pinyin_buffer ++ [p]).length = (st.dp_states ++ [nl]).length := by
        simp [hlen]
      have hne' : ∀ l ∈ st.dp_states ++ [nl], l ≠ [] := by
        intro l hl
        rcases List.mem_append.mp hl with h1 | h1
        · exact hne l h1
        · rw [List.mem_singleton.mp h1]; exact hnl
      obtain ⟨a1, a2, a3, a4⟩ := ih ⟨st.pinyin_buffer ++ [p], st.dp_states ++ [nl]⟩
        (fun q hq => hps q (List.mem_cons_of_mem p hq)) hlen' hne' hch
      refine ⟨a1, a2, a3, ?_⟩
      rw [a4]
      show (st.pinyin_buffer ++ [p]).length + rest.length =
        st.pinyin_buffer.length + (p :: rest).length
      simp only [List.length_append, List.length_singleton, List.length_cons,
        List.length_nil]
      omega

/-- C8 counterexample session: `append("ni"); append("zz"); append("hao")`
with `zz` unknown. -/
def stDead : IncState := runAdds cfgDemo ["ni", "zz", "hao"]

/-- C8 counterexample: the dead-end layer of `"zz"` breaks the back
chain: the last layer is non-empty and the buffer has three tokens, but
the back-traces returned by `get_topk_sequences` have length 1. -/
theorem claim_C8_cex :
    stDead.dp_states.getLast?.getD [] ≠ [] ∧
    stDead.pinyin_buffer.length = 3 ∧
    get_topk_sequences stDead 5 = [(['h'], 1)] ∧
    (['h'] : List Char).length ≠ stDead.pinyin_buffer.length := by
  exact ⟨by decide, by decide, by decide, by decide⟩

/-- C8 (amended): for every session built by appends of non-empty pinyins
that all have candidates (so no dead-end layer arises) with a positive
`beam_size`, every string returned by `get_topk_sequences(k)` is a full
back-trace whose length equals the length of the pinyin buffer. -/
theorem claim_C8_amended (cfg : IncConfig) (ps : List String) (k : ℕ)
    (e : List Char × ℤ) (hbs : 1 ≤ cfg.beam_size)
    (hps : ∀ p ∈ ps, p ≠ "" ∧ candsOf cfg.candidates_map p ≠ [])
    (he : e ∈ get_topk_sequences (runAdds cfg ps) k) :
    e.1.length = (runAdds cfg ps).pinyin_buffer.length := by
  obtain ⟨hlen, hne, hchain, _⟩ := runAdds_inv cfg hbs ps IncState.empty hps rfl
    (by intro l hl; simp [IncState.empty] at hl) (by trivial)
  set st := runAdds cfg ps with hstdef
  unfold get_topk_sequences at he
  cases hlast : st.dp_states.getLast? with
  | none => rw [hlast] at he; simp at he
  | some L =>
      rw [hlast] at he
      dsimp only at he
      by_cases hL : L = []
      · rw [if_pos hL] at he; simp at he
      · rw [if_neg hL] at he
        obtain ⟨x, hx, hxe⟩ := List.mem_map.mp he
        have hxL : x ∈ L := (sortDesc_perm (fun e => e.2.1) L).subset
          (List.take_subset _ _ hx)
        have hdpne : st.dp_states ≠ [] := by
          intro h0
          rw [h0] at hlast
          simp at hlast
        have hrevne : st.dp_states.reverse ≠ [] := by
          simpa using hdpne
        have hhead : st.dp_states.reverse.head? = some L := by
          rw [List.head?_reverse]
          exact hlast
        have hkey : x.1 ∈ layerKeys (st.dp_states.reverse.headD []) := by
          have : st.dp_states.reverse.headD [] = L := by
            cases hrv : st.dp_states.reverse with
            | nil => exact absurd hrv hrevne
            | cons a as =>
                rw [hrv] at hhead
                simpa using hhead
          rw [this]
          exact List.mem_map_of_mem Prod.fst hxL
        have hback : backtrackFrom st.dp_states (some x.1) =
            (backAux st.dp_states.reverse x.1).reverse := by
          unfold backtrackFrom
          cases hrv : st.dp_states.reverse with
          | nil => exact absurd hrv hrevne
          | cons a as => rfl
        have hlenb : (backtrackFrom st.dp_states (some x.1)).length =
            st.dp_states.length := by
          rw [hback]
          rw [List.length_reverse]
          rw [backAux_length st.dp_states.reverse hchain x.1 hkey]
          exact List.length_reverse _
        rw [← hxe]
        simp only
        rw [hlenb]
        exact hlen.symm

/-- C8 witness: the two-token dead-end-free session `ni hao`. -/
theorem claim_C8_amended_witness :
    (1 ≤ cfgDemo.beam_size ∧
     (∀ p ∈ ["ni", "hao"], p ≠ "" ∧ candsOf cfgDemo.candidates_map p ≠ []) ∧
     (['n', 'h'], (2 : ℤ)) ∈ get_topk_sequences (runAdds cfgDemo ["ni", "hao"]) 5) ∧
    (['n', 'h'], (2 : ℤ)).1.length = (runAdds cfgDemo ["ni", "hao"]).pinyin_buffer.length :=
  ⟨⟨by decide, by decide, by decide⟩,
   claim_C8_amended cfgDemo ["ni", "hao"] 5 (['n', 'h'], 2) (by decide) (by decide)
     (by decide)⟩

/-! ## C1: `viterbi_decode` vs `viterbi_topk` -/

/-- All complete candidate paths of a sequence, as beam entries with
their exact scores: the initial entries of the first token extended by
every candidate of every later token (this is `viterbi_topk`'s extension
step applied without any pruning). -/
def pathEntries (cm : List (String × List Char)) (hmm : HMMLike)
    (bonus : Option (List ((Char × Char) × ℤ))) (py0 : String)
    (rest : List String) : List BeamEntry :=
  rest.foldl (fun acc py => extendAll cm hmm bonus py acc) (initEntries cm hmm py0)

theorem length_extendAll (cm : List (String × List Char)) (hmm : HMMLike)
    (bonus : Option (List ((Char × Char) × ℤ))) (py : String) (P : List BeamEntry) :
    (extendAll cm hmm bonus py P).length = P.length * (candsOf cm py).length := by
  induction P with
  | nil => simp [extendAll]
  | cons e P ih =>
      unfold extendAll at ih ⊢
      simp only [List.flatMap_cons, List.length_append, List.length_map, ih,
        List.length_cons]
      ring

theorem extendAll_ne_nil (cm : List (String × List Char)) (hmm : HMMLike)
    (bonus : Option (List ((Char × Char) × ℤ))) (py : String) (P : List BeamEntry)
    (hP : P ≠ []) (hc : candsOf cm py ≠ []) : extendAll cm hmm bonus py P ≠ [] := by
  intro h0
  have := congrArg List.length h0
  rw [length_extendAll] at this
  simp only [List.length_nil] at this
  rcases Nat.mul_eq_zero.mp this with h1 | h1
  · exact hP (List.length_eq_zero.mp h1)
  · exact hc (List.length_eq_zero.mp h1)

/-- Extending never shrinks the path count (every token has candidates). -/
theorem foldl_extendAll_length_le (cm : List (String × List Char)) (hmm : HMMLike)
    (bonus : Option (List ((Char × Char) × ℤ))) :
    ∀ (toks : List String) (P : List BeamEntry),
      (∀ py ∈ toks, candsOf cm py ≠ []) →
      P.length ≤ (toks.foldl (fun acc py => extendAll cm hmm bonus py acc) P).length := by
  intro toks
  induction toks with
  | nil => intro P _; exact le_refl _
  | cons py ts ih =>
      intro P hc
      have h1 : P.length ≤ (extendAll cm hmm bonus py P).length := by
        rw [length_extendAll]
        have : 1 ≤ (candsOf cm py).length := by
          rcases Nat.eq_zero_or_pos (candsOf cm py).length with h | h
          · exact absurd (List.length_eq_zero.mp h) (hc py (List.mem_cons_self _ _))
          · exact h
        calc P.length = P.length * 1 := by ring
        _ ≤ P.length * (candsOf cm py).length := Nat.mul_le_mul_left _ this
      exact le_trans h1 (ih _ (fun q hq => hc q (List.mem_cons_of_mem _ hq)))

/-- With a beam wide enough for every complete path, the beam after the
main loop is a permutation of the full path set. -/
theorem vtopkLoop_full (cm : List (String × List Char)) (hmm : HMMLike)
    (bonus : Option (List ((Char × Char) × ℤ))) (bs : ℕ) :
    ∀ (toks : List String) (beam P : List BeamEntry),
      beam.Perm P → P ≠ [] →
      (∀ py ∈ toks, candsOf cm py ≠ []) →
      (toks.foldl (fun acc py => extendAll cm hmm bonus py acc) P).length ≤ bs →
      (vtopkLoop cm hmm bonus bs toks beam).Perm
        (toks.foldl (fun acc py => extendAll cm hmm bonus py acc) P) := by
  intro toks
  induction toks with
  | nil => intro beam P hperm _ _ _; exact hperm
  | cons py ts ih =>
      intro beam P hperm hPne hc hlen
      have hcpy : candsOf cm py ≠ [] := hc py (List.mem_cons_self _ _)
      have hbeamne : beam ≠ [] := by
        intro h0
        rw [h0] at hperm
        exact hPne hperm.nil_eq.symm
      have hnbne : extendAll cm hmm bonus py beam ≠ [] :=
        extendAll_ne_nil cm hmm bonus py beam hbeamne hcpy
      have hnbperm : (extendAll cm hmm bonus py beam).Perm
          (extendAll cm hmm bonus py P) := List.Perm.flatMap_right _ hperm
      unfold vtopkLoop
      rw [if_neg hcpy]
      simp only [if_neg hnbne]
      have hlen2 : ((sortDesc (fun e => e.1) (extendAll cm hmm bonus py beam)).take
          bs).Perm (extendAll cm hmm bonus py P) := by
        have hlenP : (extendAll cm hmm bonus py P).length ≤ bs := by
          have := foldl_extendAll_length_le cm hmm bonus ts
            (extendAll cm hmm bonus py P)
            (fun q hq => hc q (List.mem_cons_of_mem _ hq))
          simpa using le_trans this hlen
        have hlenb : (sortDesc (fun e => e.1)
            (extendAll cm hmm bonus py beam)).length ≤ bs := by
          rw [length_sortDesc, hnbperm.length_eq]
          exact hlenP
        rw [List.take_of_length_le hlenb]
        exact (sortDesc_perm _ _).trans hnbperm
      have := ih ((sortDesc (fun e => e.1) (extendAll cm hmm bonus py beam)).take bs)
        (extendAll cm hmm bonus py P) hlen2
        (extendAll_ne_nil cm hmm bonus py P hPne hcpy)
        (fun q hq => hc q (List.mem_cons_of_mem _ hq)) (by simpa using hlen)
      simpa using this

theorem oGt_self (a : Option ℤ) : oGt a a = false := by
  cases a
  · rfl
  · simp [oGt]

theorem oGt_false_trans (a b c : Option ℤ) (h1 : oGt a b = false) (h2 : oGt b c = false) :
    oGt a c = false := by
  cases a <;> cases b <;> cases c <;> (simp_all [oGt]; try omega)

theorem oGt_true_not_rev (a b : Option ℤ) (h : oGt a b = true) : oGt b a = false := by
  cases a <;> cases b <;> (simp_all [oGt]; try omega)

theorem oGt_false_of_le (x y : ℤ) (h : x ≤ y) : oGt (some x) (some y) = false := by
  simp [oGt]; omega

theorem le_of_oGt_false (x y : ℤ) (h : oGt (some x) (some y) = false) : x ≤ y := by
  simp [oGt] at h; omega

/-- The keys after a `dictInsert` are the old keys, plus the new key when
it was absent. -/
theorem keys_dictInsert {κ α : Type} [DecidableEq κ] (l : List (κ × α)) (k : κ) (v : α) :
    (dictInsert l k v).map Prod.fst = l.map Prod.fst ∨
    (dictInsert l k v).map Prod.fst = l.map Prod.fst ++ [k] := by
  induction l with
  | nil => right; rfl
  | cons e rest ih =>
      unfold dictInsert
      by_cases hk : k = e.1
      · left
        simp only [if_pos hk, List.map_cons]
        rw [hk]
      · rcases ih with h1 | h1
        · left; simp only [if_neg hk, List.map_cons, h1]
        · right; simp only [if_neg hk, List.map_cons, h1]; rfl

theorem keys_dictInsert_nodup {κ α : Type} [DecidableEq κ] (l : List (κ × α)) (k : κ)
    (v : α) (h : (l.map Prod.fst).Nodup) (hk : k ∉ l.map Prod.fst ∨ True) :
    ((dictInsert l k v).map Prod.fst).Nodup := by
  induction l with
  | nil => simp [dictInsert]
  | cons e rest ih =>
      unfold dictInsert
      by_cases hke : k = e.1
      · simp only [if_pos hke, List.map_cons]
        rw [hke]
        simpa using h
      · simp only [if_neg hke, List.map_cons, List.nodup_cons] at h ⊢
        refine ⟨?_, ih h.2 (Or.inr trivial)⟩
        intro hmem
        rcases keys_dictInsert rest k v with h1 | h1
        · exact h.1 (h1 ▸ hmem)
        · rw [h1] at hmem
          rcases List.mem_append.mp hmem with h2 | h2
          · exact h.1 h2
          · exact hke (List.mem_singleton.mp h2).symm

theorem keys_foldl_dictInsert_nodup {κ α β : Type} [DecidableEq κ]
    (f : β → κ) (g : β → α) (cands : List β) :
    ∀ (acc : List (κ × α)), (acc.map Prod.fst).Nodup →
      ((cands.foldl (fun l c => dictInsert l (f c) (g c)) acc).map Prod.fst).Nodup := by
  induction cands with
  | nil => intro acc h; exact h
  | cons c cs ih =>
      intro acc h
      exact ih _ (keys_dictInsert_nodup acc (f c) (g c) h (Or.inr trivial))

/-- On nodup keys, `alookup` retrieves each entry's own value. -/
theorem alookup_of_nodup {κ α : Type} [DecidableEq κ] (l : List (κ × α))
    (hnd : (l.map Prod.fst).Nodup) (k : κ) (v : α) (h : (k, v) ∈ l) :
    alookup l k = some v := by
  induction l with
  | nil => simp at h
  | cons e rest ih =>
      simp only [List.map_cons, List.nodup_cons] at hnd
      unfold alookup
      by_cases hk : k = e.1
      · rw [if_pos hk]
        rcases List.mem_cons.mp h with h1 | h1
        · rw [← h1]
        · exact absurd (hk ▸ List.mem_map_of_mem Prod.fst h1 : e.1 ∈ rest.map Prod.fst)
            hnd.1
      · rw [if_neg hk]
        rcases List.mem_cons.mp h with h1 | h1
        · exact absurd (congrArg Prod.fst h1) hk
        · exact ih hnd.2 h1

/-- The inserted key is always a key of `dictInsert`. -/
theorem inserted_key_mem {κ α : Type} [DecidableEq κ] (l : List (κ × α)) (k : κ) (v : α) :
    k ∈ (dictInsert l k v).map Prod.fst := by
  induction l with
  | nil => simp [dictInsert]
  | cons e rest ih =>
      unfold dictInsert
      by_cases hk : k = e.1
      · simp [if_pos hk]
      · simp only [if_neg hk, List.map_cons]
        exact List.mem_cons_of_mem _ ih

/-- Old keys survive a `dictInsert`. -/
theorem key_mem_dictInsert_of_mem {κ α : Type} [DecidableEq κ] (l : List (κ × α))
    (k k0 : κ) (v : α) (h : k0 ∈ l.map Prod.fst) :
    k0 ∈ (dictInsert l k v).map Prod.fst := by
  rcases keys_dictInsert l k v with h1 | h1
  · rw [h1]; exact h
  · rw [h1]; exact List.mem_append.mpr (Or.inl h)

/-- Every inserted key is a key of the dict built by a fold. -/
theorem key_mem_foldl_dictInsert {κ α β : Type} [DecidableEq κ]
    (f : β → κ) (g : β → α) (cands : List β) :
    ∀ (acc : List (κ × α)) (c : β), c ∈ cands ∨ f c ∈ acc.map Prod.fst →
      f c ∈ (cands.foldl (fun l x => dictInsert l (f x) (g x)) acc).map Prod.fst := by
  induction cands with
  | nil =>
      intro acc c h
      rcases h with h | h
      · simp at h
      · exact h
  | cons x xs ih =>
      intro acc c h
      apply ih
      by_cases hcx : c = x
      · right
        rw [hcx]
        exact inserted_key_mem acc (f x) (g x)
      · rcases h with h | h
        · rcases List.mem_cons.mp h with h1 | h1
          · exact absurd h1 hcx
          · exact Or.inl h1
        · exact Or.inr (key_mem_dictInsert_of_mem acc (f x) (f c) (g x) h)

/-- The `best_score = -inf; best_prev = None` scan of `viterbi_decode`'s
inner loop, as a named step function (`dl` is the score added to a
predecessor with the given character). -/
def bbestStep (dl : Char → ℤ) (best : Option ℤ × Option Char)
    (x : Char × (Option ℤ × Option Char)) : Option ℤ × Option Char :=
  let s := oAdd x.2.1 (dl x.1)
  if oGt s best.1 then (s, some x.1) else best

/-- The scan returns the seed or one of the scanned candidate values, its
score dominates the seed and every scanned candidate, and ties keep the
first maximum. -/
theorem bbest_fold (dl : Char → ℤ) :
    ∀ (L : BLayer) (acc : Option ℤ × Option Char),
      (L.foldl (bbestStep dl) acc = acc ∨
        ∃ x ∈ L, L.foldl (bbestStep dl) acc = (oAdd x.2.1 (dl x.1), some x.1)) ∧
      oGt acc.1 (L.foldl (bbestStep dl) acc).1 = false ∧
      (∀ x ∈ L, oGt (oAdd x.2.1 (dl x.1)) (L.foldl (bbestStep dl) acc).1 = false) := by
  intro L
  induction L with
  | nil =>
      intro acc
      exact ⟨Or.inl rfl, oGt_self acc.1, by intro x hx; simp at hx⟩
  | cons x xs ih =>
      intro acc
      simp only [List.foldl_cons]
      obtain ⟨ihm, ihacc, ihbound⟩ := ih (bbestStep dl acc x)
      by_cases hgt : oGt (oAdd x.2.1 (dl x.1)) acc.1 = true
      · have hacc : bbestStep dl acc x = (oAdd x.2.1 (dl x.1), some x.1) := by
          unfold bbestStep
          simp only [hgt, if_pos]
        rw [hacc] at ihm ihacc ihbound ⊢
        dsimp only at ihacc
        refine ⟨?_, ?_, ?_⟩
        · rcases ihm with h1 | h1
          · exact Or.inr ⟨x, List.mem_cons_self x xs, h1⟩
          · obtain ⟨y, hy, he⟩ := h1
            exact Or.inr ⟨y, List.mem_cons_of_mem x hy, he⟩
        · exact oGt_false_trans _ _ _ (oGt_true_not_rev _ _ hgt) ihacc
        · intro z hz
          rcases List.mem_cons.mp hz with h1 | h1
          · rw [h1]
            exact ihacc
          · exact ihbound z h1
      · have hacc : bbestStep dl acc x = acc := by
          unfold bbestStep
          simp only [Bool.not_eq_true] at hgt
          simp only [hgt, if_neg, Bool.false_eq_true, not_false_iff]
        rw [hacc] at ihm ihacc ihbound ⊢
        refine ⟨?_, ihacc, ?_⟩
        · rcases ihm with h1 | h1
          · exact Or.inl h1
          · obtain ⟨y, hy, he⟩ := h1
            exact Or.inr ⟨y, List.mem_cons_of_mem x hy, he⟩
        · intro z hz
          rcases List.mem_cons.mp hz with h1 | h1
          · rw [h1]
            simp only [Bool.not_eq_true] at hgt
            exact oGt_false_trans _ _ _ hgt ihacc
          · exact ihbound z h1

/-- `max(last_layer.items(), key=score)` keeps the first maximum and its
score dominates every entry. -/
theorem maxby_fold :
    ∀ (es : BLayer) (a : Char × (Option ℤ × Option Char)),
      (es.foldl (fun best e => if oGt e.2.1 best.2.1 then e else best) a ∈ a :: es) ∧
      oGt a.2.1 (es.foldl (fun best e => if oGt e.2.1 best.2.1 then e else best) a).2.1
        = false ∧
      ∀ e ∈ es,
        oGt e.2.1 (es.foldl (fun best e => if oGt e.2.1 best.2.1 then e else best) a).2.1
          = false := by
  intro es
  induction es with
  | nil =>
      intro a
      exact ⟨List.mem_cons_self a [], oGt_self a.2.1, by intro e he; simp at he⟩
  | cons x xs ih =>
      intro a
      simp only [List.foldl_cons]
      obtain ⟨ihm, ihacc, ihbound⟩ := ih (if oGt x.2.1 a.2.1 then x else a)
      by_cases hgt : oGt x.2.1 a.2.1 = true
      · rw [if_pos hgt] at ihm ihacc ihbound ⊢
        refine ⟨?_, ?_, ?_⟩
        · rcases List.mem_cons.mp ihm with h1 | h1
          · rw [h1]
            exact List.mem_cons_of_mem a (List.mem_cons_self x xs)
          · exact List.mem_cons_of_mem a (List.mem_cons_of_mem x h1)
        · exact oGt_false_trans _ _ _ (oGt_true_not_rev _ _ hgt) ihacc
        · intro e he
          rcases List.mem_cons.mp he with h1 | h1
          · rw [h1]
            exact ihacc
          · exact ihbound e h1
      · simp only [Bool.not_eq_true] at hgt
        rw [if_neg (by simp [hgt])] at ihm ihacc ihbound ⊢
        refine ⟨?_, ihacc, ?_⟩
        · rcases List.mem_cons.mp ihm with h1 | h1
          · rw [h1]
            exact List.mem_cons_self a _
          · exact List.mem_cons_of_mem a (List.mem_cons_of_mem x h1)
        · intro e he
          rcases List.mem_cons.mp he with h1 | h1
          · rw [h1]
            exact oGt_false_trans _ _ _ hgt ihacc
          · exact ihbound e h1

theorem reverse_eq_getLast_cons {α : Type} (l : List α) (L : α)
    (h : l.getLast? = some L) : l.reverse = L :: l.dropLast.reverse := by
  have hne : l ≠ [] := by
    intro h0
    rw [h0] at h
    simp at h
  conv_lhs => rw [← List.dropLast_append_getLast hne]
  rw [List.reverse_append]
  rw [List.getLast?_eq_getLast_of_ne_nil hne] at h
  rw [Option.some_inj.mp h]
  rfl

theorem btrace_cons (L : BLayer) (rest : List BLayer) (p : Char)
    (v : Option ℤ × Option Char) (h : alookup L p = some v) :
    btrace (L :: rest) (some p) = (btrace rest v.2).map (fun cs => p :: cs) := by
  conv_lhs => rw [btrace]
  rw [h]

/-- The running invariant of `viterbi_decode`'s dynamic programming (all
tokens so far had candidates): the last layer has distinct keys, and each
entry holds the exact maximal score over complete candidate paths ending
in its character, together with back-pointers whose walk reconstructs a
path attaining that score. `P` is the full path set of the processed
prefix. -/
def DecInv (dp : List BLayer) (P : List BeamEntry) : Prop :=
  ∃ L, dp.getLast? = some L ∧ (L.map Prod.fst).Nodup ∧ L ≠ [] ∧
    (∀ e ∈ L, ∃ s, e.2.1 = some s ∧
      (∃ q ∈ P, q.2.2 = e.1 ∧ q.1 = s ∧
        ∃ cs, btrace dp.dropLast.reverse e.2.2 = some cs ∧
          (e.1 :: cs).reverse = q.2.1) ∧
      (∀ q ∈ P, q.2.2 = e.1 → q.1 ≤ s)) ∧
    (∀ q ∈ P, q.2.2 ∈ L.map Prod.fst)

/-- The first layer of `viterbi_decode` establishes the invariant. -/
theorem decInv_init (cm : List (String × List Char)) (hmm : HMMLike) (py0 : String)
    (hc : candsOf cm py0 ≠ []) :
    DecInv
      [(candsOf cm py0).foldl
        (fun l ch =>
          dictInsert l ch (some (hmm.get_init ch + hmm.get_emit ch py0), none)) []]
      (initEntries cm hmm py0) := by
  refine ⟨(candsOf cm py0).foldl
      (fun l ch =>
        dictInsert l ch (some (hmm.get_init ch + hmm.get_emit ch py0), none)) [],
    List.getLast?_singleton _, ?_, ?_, ?_, ?_⟩
  · exact keys_foldl_dictInsert_nodup (fun ch => ch)
      (fun ch => (some (hmm.get_init ch + hmm.get_emit ch py0), none))
      (candsOf cm py0) [] (by simp)
  · exact foldl_dictInsert_ne_nil _ _ _ [] (Or.inr hc)
  · intro e he
    rcases mem_foldl_dictInsert (fun ch => ch)
      (fun ch => (some (hmm.get_init ch + hmm.get_emit ch py0), none))
      (candsOf cm py0) [] e he with h1 | h1
    · simp at h1
    · obtain ⟨c, hcmem, hce⟩ := h1
      subst hce
      refine ⟨hmm.get_init c + hmm.get_emit c py0, rfl, ?_, ?_⟩
      · exact ⟨(hmm.get_init c + hmm.get_emit c py0, [c], c),
          List.mem_map.mpr ⟨c, hcmem, rfl⟩, rfl, rfl, [], rfl, rfl⟩
      · intro q hq hqc
        obtain ⟨c', _, hq'⟩ := List.mem_map.mp hq
        subst hq'
        simp only at hqc
        simp [hqc]
  · intro q hq
    obtain ⟨c', hc', hq'⟩ := List.mem_map.mp hq
    subst hq'
    simp only
    exact key_mem_foldl_dictInsert (fun ch => ch)
      (fun ch => (some (hmm.get_init ch + hmm.get_emit ch py0), none))
      (candsOf cm py0) [] c' (Or.inl hc')

/-- `bstep` on a token with candidates, with the inner scan named. -/
theorem bstep_eq (cm : List (String × List Char)) (hmm : HMMLike)
    (bonus : Option (List ((Char × Char) × ℤ))) (dp : List BLayer) (py : String)
    (hc : candsOf cm py ≠ []) :
    bstep cm hmm bonus dp py = dp ++ [(candsOf cm py).foldl
      (fun l ch =>
        dictInsert l ch ((dp.getLast?.getD []).foldl
          (bbestStep
            (fun p => hmm.get_trans p ch + hmm.get_emit ch py + bonusAt bonus p ch))
          (none, none)))
      []] := by
  unfold bstep
  rw [if_neg hc]
  rfl

/-- One DP step of `viterbi_decode` preserves the invariant. -/
theorem decInv_step (cm : List (String × List Char)) (hmm : HMMLike)
    (bonus : Option (List ((Char × Char) × ℤ))) (dp : List BLayer)
    (P : List BeamEntry) (py : String)
    (hinv : DecInv dp P) (hc : candsOf cm py ≠ []) :
    DecInv (bstep cm hmm bonus dp py) (extendAll cm hmm bonus py P) := by
  obtain ⟨L, hL, hnd, hLne, hent, hcov⟩ := hinv
  rw [bstep_eq cm hmm bonus dp py hc]
  have hgetD : dp.getLast?.getD [] = L := by rw [hL]; rfl
  rw [hgetD]
  refine ⟨(candsOf cm py).foldl
      (fun l ch =>
        dictInsert l ch (L.foldl
          (bbestStep
            (fun p => hmm.get_trans p ch + hmm.get_emit ch py + bonusAt bonus p ch))
          (none, none)))
      [], List.getLast?_concat _, ?_, ?_, ?_, ?_⟩
  · exact keys_foldl_dictInsert_nodup (fun ch => ch)
      (fun ch => L.foldl
        (bbestStep
          (fun p => hmm.get_trans p ch + hmm.get_emit ch py + bonusAt bonus p ch))
        (none, none))
      (candsOf cm py) [] (by simp)
  · exact foldl_dictInsert_ne_nil _ _ _ [] (Or.inr hc)
  · intro e he
    rcases mem_foldl_dictInsert (fun ch => ch)
      (fun ch => L.foldl
        (bbestStep
          (fun p => hmm.get_trans p ch + hmm.get_emit ch py + bonusAt bonus p ch))
        (none, none))
      (candsOf cm py) [] e he with h1 | h1
    · simp at h1
    · obtain ⟨ch, hchmem, hce⟩ := h1
      subst hce
      obtain ⟨hm, _, hbound⟩ := bbest_fold
        (fun p => hmm.get_trans p ch + hmm.get_emit ch py + bonusAt bonus p ch)
        L (none, none)
      rcases hm with hm | hm
      · exfalso
        obtain ⟨x0, hx0⟩ : ∃ x0, x0 ∈ L := by
          cases L with
          | nil => exact absurd rfl hLne
          | cons a b => exact ⟨a, List.mem_cons_self a b⟩
        obtain ⟨s0, hs0, _, _⟩ := hent x0 hx0
        have hb := hbound x0 hx0
        rw [hm, hs0] at hb
        simp [oAdd, oGt] at hb
      · obtain ⟨x, hxL, hxeq⟩ := hm
        obtain ⟨sx, hsx, hqex, hxmax⟩ := hent x hxL
        obtain ⟨qx, hqxP, hqlast, hqscore, csx, hcsx, hrev⟩ := hqex
        have hval : L.foldl
            (bbestStep
              (fun p => hmm.get_trans p ch + hmm.get_emit ch py + bonusAt bonus p ch))
            (none, none) =
            (some (sx + (hmm.get_trans x.1 ch + hmm.get_emit ch py +
              bonusAt bonus x.1 ch)), some x.1) := by
          rw [hxeq, hsx]
          rfl
        refine ⟨sx + (hmm.get_trans x.1 ch + hmm.get_emit ch py + bonusAt bonus x.1 ch),
          by dsimp only; rw [hval], ?_, ?_⟩
        · refine ⟨(qx.1 + hmm.get_trans qx.2.2 ch + hmm.get_emit ch py +
              bonusAt bonus qx.2.2 ch, qx.2.1 ++ [ch], ch), ?_, rfl, ?_, ?_⟩
          · exact List.mem_flatMap.mpr ⟨qx, hqxP, List.mem_map.mpr ⟨ch, hchmem, rfl⟩⟩
          · rw [hqlast, hqscore]
            dsimp only
            omega
          · refine ⟨x.1 :: csx, ?_, ?_⟩
            · rw [List.dropLast_concat]
              rw [reverse_eq_getLast_cons dp L hL]
              have halx : alookup L x.1 = some x.2 :=
                alookup_of_nodup L hnd x.1 x.2 (by simpa using hxL)
              dsimp only
              rw [hval]
              dsimp only
              rw [btrace_cons L _ x.1 x.2 halx, hcsx]
              rfl
            · dsimp only
              rw [List.reverse_cons, hrev]
        · intro q' hq' hq'last
          obtain ⟨q, hqP, hq'map⟩ := List.mem_flatMap.mp hq'
          obtain ⟨ch', hch', hq'eq⟩ := List.mem_map.mp hq'map
          subst hq'eq
          dsimp only at hq'last ⊢
          subst hq'last
          have hqkey := hcov q hqP
          obtain ⟨v, hv⟩ := alookup_some_of_mem_keys L q.2.2 hqkey
          have hvL : (q.2.2, v) ∈ L := alookup_mem L q.2.2 v hv
          obtain ⟨sv, hsv, _, hvmax⟩ := hent (q.2.2, v) hvL
          have hqle : q.1 ≤ sv := hvmax q hqP rfl
          have hb := hbound (q.2.2, v) hvL
          dsimp only at hsv hb
          rw [hsv, hval] at hb
          dsimp only at hb
          simp only [oAdd] at hb
          have hle2 := le_of_oGt_false _ _ hb
          omega
  · intro q' hq'
    obtain ⟨q, hqP, hq'map⟩ := List.mem_flatMap.mp hq'
    obtain ⟨ch', hch', hq'eq⟩ := List.mem_map.mp hq'map
    subst hq'eq
    dsimp only
    exact key_mem_foldl_dictInsert (fun ch => ch)
      (fun ch => L.foldl
        (bbestStep
          (fun p => hmm.get_trans p ch + hmm.get_emit ch py + bonusAt bonus p ch))
        (none, none))
      (candsOf cm py) [] ch' (Or.inl hch')

theorem decInv_fold (cm : List (String × List Char)) (hmm : HMMLike)
    (bonus : Option (List ((Char × Char) × ℤ))) :
    ∀ (toks : List String) (dp : List BLayer) (P : List BeamEntry),
      DecInv dp P → (∀ py ∈ toks, candsOf cm py ≠ []) →
      DecInv (toks.foldl (bstep cm hmm bonus) dp)
        (toks.foldl (fun acc py => extendAll cm hmm bonus py acc) P) := by
  intro toks
  induction toks with
  | nil => intro dp P h _; exact h
  | cons py ts ih =>
      intro dp P h hc
      simp only [List.foldl_cons]
      exact ih _ _ (decInv_step cm hmm bonus dp P py h (hc py (List.mem_cons_self _ _)))
        (fun q hq => hc q (List.mem_cons_of_mem _ hq))

/-- Under the invariant, `viterbi_decode` returns the back-trace of a
maximal-score path; with a unique maximum it returns that path. -/
theorem viterbi_decode_best (cm : List (String × List Char)) (hmm : HMMLike)
    (bonus : Option (List ((Char × Char) × ℤ))) (py0 : String) (rest : List String)
    (estar : BeamEntry)
    (hall : ∀ py ∈ py0 :: rest, candsOf cm py ≠ [])
    (hmem : estar ∈ pathEntries cm hmm bonus py0 rest)
    (hmax : ∀ q ∈ pathEntries cm hmm bonus py0 rest, q.1 ≤ estar.1)
    (huniq : ∀ q ∈ pathEntries cm hmm bonus py0 rest,
      q.1 = estar.1 → q.2.1 = estar.2.1) :
    viterbi_decode (py0 :: rest) cm hmm bonus = some estar.2.1 := by
  have hinv := decInv_fold cm hmm bonus rest
    [(candsOf cm py0).foldl
      (fun l ch =>
        dictInsert l ch (some (hmm.get_init ch + hmm.get_emit ch py0), none)) []]
    (initEntries cm hmm py0)
    (decInv_init cm hmm py0 (hall py0 (List.mem_cons_self _ _)))
    (fun q hq => hall q (List.mem_cons_of_mem _ hq))
  obtain ⟨L, hL, hnd, hLne, hent, hcov⟩ := hinv
  unfold viterbi_decode
  dsimp only
  have hgetD : (rest.foldl (bstep cm hmm bonus)
      [(candsOf cm py0).foldl
        (fun l ch =>
          dictInsert l ch (some (hmm.get_init ch + hmm.get_emit ch py0), none))
        []]).getLast?.getD [] = L := by
    rw [hL]
    rfl
  rw [hgetD]
  cases L with
  | nil => exact absurd rfl hLne
  | cons e0 es =>
      dsimp only
      obtain ⟨hblmem, hblacc, hblbound⟩ := maxby_fold es e0
      have hbound : ∀ e ∈ e0 :: es,
          oGt e.2.1 (es.foldl (fun best e => if oGt e.2.1 best.2.1 then e else best)
            e0).2.1 = false := by
        intro e he
        rcases List.mem_cons.mp he with h1 | h1
        · rw [h1]
          exact hblacc
        · exact hblbound e h1
      obtain ⟨sbl, hsbl, hqex, hblmax⟩ := hent _ hblmem
      obtain ⟨qbl, hqblP, hqlast, hqscore, cs, hcs, hrevq⟩ := hqex
      -- the global maximum equals the chosen entry's score
      have hglobal : ∀ q ∈ pathEntries cm hmm bonus py0 rest, q.1 ≤ sbl := by
        intro q hq
        have hqkey := hcov q hq
        obtain ⟨v, hv⟩ := alookup_some_of_mem_keys _ q.2.2 hqkey
        have hvL := alookup_mem _ q.2.2 v hv
        obtain ⟨sv, hsv, _, hvmax⟩ := hent (q.2.2, v) hvL
        have h1 : q.1 ≤ sv := hvmax q hq rfl
        have h2 := hbound (q.2.2, v) hvL
        dsimp only at hsv
        rw [hsv, hsbl] at h2
        exact le_trans h1 (le_of_oGt_false _ _ h2)
      have hqble : qbl.1 = estar.1 :=
        le_antisymm (hmax qbl hqblP) (hqscore ▸ hglobal estar hmem)
      have hfinal : qbl.2.1 = estar.2.1 := huniq qbl hqblP hqble
      rw [hcs]
      simp only [Option.map_some']
      rw [hrevq, hfinal]

/-- C1 (amended): for a non-empty sequence whose tokens all have
candidates, `viterbi_decode` and `viterbi_topk(k ≥ 1)[0].string` agree
whenever `beam_size` is at least the total number of complete candidate
paths (so the beam is never truncated) and the best-scoring path is
unique. (`estar` is that best entry: its score dominates all path entries
and every entry attaining it carries the same character sequence.) -/
theorem claim_C1_amended (cm : List (String × List Char)) (hmm : HMMLike)
    (bonus : Option (List ((Char × Char) × ℤ))) (py0 : String) (rest : List String)
    (k bs : ℕ) (estar : BeamEntry)
    (hall : ∀ py ∈ py0 :: rest, candsOf cm py ≠ [])
    (hk : 1 ≤ k)
    (hbs : (pathEntries cm hmm bonus py0 rest).length ≤ bs)
    (hmem : estar ∈ pathEntries cm hmm bonus py0 rest)
    (hmax : ∀ q ∈ pathEntries cm hmm bonus py0 rest, q.1 ≤ estar.1)
    (huniq : ∀ q ∈ pathEntries cm hmm bonus py0 rest,
      q.1 = estar.1 → q.2.1 = estar.2.1) :
    viterbi_decode (py0 :: rest) cm hmm bonus = some estar.2.1 ∧
    ∃ sc tl, viterbi_topk (py0 :: rest) cm hmm k (some bs) bonus =
      (estar.2.1, sc) :: tl := by
  refine ⟨viterbi_decode_best cm hmm bonus py0 rest estar hall hmem hmax huniq, ?_⟩
  have hc0 : candsOf cm py0 ≠ [] := hall py0 (List.mem_cons_self _ _)
  have hrestc : ∀ py ∈ rest, candsOf cm py ≠ [] :=
    fun q hq => hall q (List.mem_cons_of_mem _ hq)
  have hinitne : initEntries cm hmm py0 ≠ [] := by
    unfold initEntries
    intro h0
    exact hc0 (List.map_eq_nil_iff.mp h0)
  have hinitle : (initEntries cm hmm py0).length ≤ bs :=
    le_trans (foldl_extendAll_length_le cm hmm bonus rest _ hrestc) hbs
  have htake : (sortDesc (fun e => e.1) (initEntries cm hmm py0)).take bs =
      sortDesc (fun e => e.1) (initEntries cm hmm py0) :=
    List.take_of_length_le (by rw [length_sortDesc]; exact hinitle)
  have hperm : (vtopkLoop cm hmm bonus bs rest
      (sortDesc (fun e => e.1) (initEntries cm hmm py0))).Perm
        (pathEntries cm hmm bonus py0 rest) :=
    vtopkLoop_full cm hmm bonus bs rest _ (initEntries cm hmm py0)
      (sortDesc_perm _ _) hinitne hrestc hbs
  unfold viterbi_topk
  dsimp only
  simp only [Option.getD_some]
  rw [htake]
  have hPpos : 0 < (pathEntries cm hmm bonus py0 rest).length :=
    lt_of_lt_of_le (List.length_pos.mpr hinitne)
      (foldl_extendAll_length_le cm hmm bonus rest _ hrestc)
  have hresne : (vtopkLoop cm hmm bonus bs rest
      (sortDesc (fun e => e.1) (initEntries cm hmm py0))).map
        (fun e => (e.2.1, e.1)) ≠ [] := by
    intro h0
    have := congrArg List.length h0
    rw [List.length_map, hperm.length_eq] at this
    simp only [List.length_nil] at this
    omega
  obtain ⟨h, t, heq⟩ : ∃ h t, sortDesc (fun e => e.2)
      ((vtopkLoop cm hmm bonus bs rest
        (sortDesc (fun e => e.1) (initEntries cm hmm py0))).map
          (fun e => (e.2.1, e.1))) = h :: t := by
    cases hsd : sortDesc (fun e => e.2)
        ((vtopkLoop cm hmm bonus bs rest
          (sortDesc (fun e => e.1) (initEntries cm hmm py0))).map
            (fun e => (e.2.1, e.1))) with
    | nil =>
        exfalso
        have := congrArg List.length hsd
        rw [length_sortDesc] at this
        exact hresne (List.length_eq_zero.mp (by simpa using this))
    | cons h t => exact ⟨h, t, rfl⟩
  rw [heq]
  obtain ⟨k', rfl⟩ : ∃ k', k = k' + 1 := ⟨k - 1, by omega⟩
  rw [List.take_succ_cons]
  have hhm : h ∈ (vtopkLoop cm hmm bonus bs rest
      (sortDesc (fun e => e.1) (initEntries cm hmm py0))).map
        (fun e => (e.2.1, e.1)) :=
    (sortDesc_perm _ _).subset (heq ▸ List.mem_cons_self h t)
  obtain ⟨b, hbB, hbh⟩ := List.mem_map.mp hhm
  have hbP : b ∈ pathEntries cm hmm bonus py0 rest := hperm.subset hbB
  have himg : (estar.2.1, estar.1) ∈ (vtopkLoop cm hmm bonus bs rest
      (sortDesc (fun e => e.1) (initEntries cm hmm py0))).map
        (fun e => (e.2.1, e.1)) :=
    List.mem_map.mpr ⟨estar, hperm.mem_iff.mpr hmem, rfl⟩
  have hle := sortDesc_head_ge (fun e => e.2) _ h t heq _ himg
  have hb1 : b.1 = estar.1 := by
    refine le_antisymm (hmax b hbP) ?_
    rw [← hbh] at hle
    exact hle
  have hstr : b.2.1 = estar.2.1 := huniq b hbP hb1
  exact ⟨b.1, t.take k', by rw [← hbh, hstr]⟩

/-- Lexicon for the C1 counterexample: branching 2, 2, 1. -/
def cmC1 : List (String × List Char) := [("a", ['x', 'y']), ("b", ['u', 'v']), ("c", ['z'])]

/-- Scores for the C1 counterexample: the prefix `x·u` looks best after
two tokens, but only `u → z` is expensive, so the optimum goes through
`v`, which a width-2 beam has already dropped. -/
def hmmC1 : HMMLike where
  get_init := fun c => if c = 'x' then 10 else if c = 'y' then 9 else 0
  get_trans := fun p c =>
    if p = 'x' ∧ c = 'u' then 0
    else if p = 'y' ∧ c = 'u' then -1
    else if p = 'x' ∧ c = 'v' then -3
    else if p = 'y' ∧ c = 'v' then -3
    else if p = 'u' ∧ c = 'z' then -10
    else 0
  get_emit := fun _ _ => 0

/-- C1 counterexample: every token has candidates, `beam_size = 2` equals
the maximum per-token branching, `k = 1`, yet `viterbi_decode` returns
`xvz` while the first beam result is `xuz`. -/
theorem claim_C1_cex :
    (∀ py ∈ ["a", "b", "c"], candsOf cmC1 py ≠ [] ∧ (candsOf cmC1 py).length ≤ 2) ∧
    viterbi_decode ["a", "b", "c"] cmC1 hmmC1 none = some ['x', 'v', 'z'] ∧
    viterbi_topk ["a", "b", "c"] cmC1 hmmC1 1 (some 2) none = [(['x', 'u', 'z'], 0)] ∧
    (['x', 'v', 'z'] : List Char) ≠ ['x', 'u', 'z'] := by
  exact ⟨by decide, by decide, by decide, by decide⟩

/-- C1 witness: the toy `ni hao` model, where the two complete paths have
distinct scores and the beam is wide enough for both. -/
theorem claim_C1_amended_witness :
    ((∀ py ∈ ["ni", "hao"], candsOf cfgDemo.candidates_map py ≠ []) ∧
     1 ≤ 1 ∧
     (pathEntries cfgDemo.candidates_map hmmDemo none "ni" ["hao"]).length ≤ 2 ∧
     ((2 : ℤ), ['n', 'h'], 'h') ∈
       pathEntries cfgDemo.candidates_map hmmDemo none "ni" ["hao"] ∧
     (∀ q ∈ pathEntries cfgDemo.candidates_map hmmDemo none "ni" ["hao"],
       q.1 ≤ (2 : ℤ)) ∧
     (∀ q ∈ pathEntries cfgDemo.candidates_map hmmDemo none "ni" ["hao"],
       q.1 = (2 : ℤ) → q.2.1 = ['n', 'h'])) ∧
    (viterbi_decode ["ni", "hao"] cfgDemo.candidates_map hmmDemo none =
       some ['n', 'h'] ∧
     ∃ sc tl, viterbi_topk ["ni", "hao"] cfgDemo.candidates_map hmmDemo 1 (some 2)
       none = (['n', 'h'], sc) :: tl) :=
  ⟨⟨by decide, by decide, by decide, by decide, by decide, by decide⟩,
   claim_C1_amended cfgDemo.candidates_map hmmDemo none "ni" ["hao"] 1 2
     (2, ['n', 'h'], 'h') (by decide) (by decide) (by decide) (by decide) (by decide)
     (by decide)⟩
